import Mathlib

/-!
Verification of the reversible doubly-linked structures of a dancing-links
library.  The development shallowly embeds the two source components:

* the array-indexed item ring of `src/lists.rs` (`ItemNode`, `Items`, the
  cursor `Item` and its `remove`/`reinsert`/iterator operations), and
* the generic intrusive linked list of `src/list.rs` (`Link`, the
  `LinkedList` operations `connect_self`, `prepend`, `remove`, `reinsert`,
  `next`, `previous`, `is_valid`), modelled over an arena of node
  identifiers.

Machine integers (`usize`) are modelled as `Nat`; the two wrapping
operations used by `Items::new` are written with an explicit modulus
`USIZE = 2 ^ 64`.  Operations that can panic in the source (an
out-of-bounds slice index, `Option::unwrap` on a missing neighbour) are
modelled as `Option`-returning functions, `none` standing for the panic.
-/

/-- Word size of `usize`: the source targets a 64-bit platform, and
`usize::wrapping_sub` / `usize::wrapping_add` reduce modulo `2 ^ 64`. -/
def USIZE : Nat := 2 ^ 64

/-- `struct ItemNode { previous: usize, next: usize }` from `src/lists.rs`:
one item (or the sentinel) of the item ring, holding the array indices of
its two neighbours. -/
structure ItemNode where
  previous : Nat
  next : Nat
deriving DecidableEq, Repr

/-- `struct Items { nodes: Box<[ItemNode]> }` from `src/lists.rs`: the
backing array of the item ring. -/
structure Items where
  nodes : List ItemNode
deriving DecidableEq, Repr

/-- Read access `self.nodes[i]` (the `std::ops::Index` impl).  All uses in
the claims are in bounds; out of bounds the source panics, so theorems
about states carry explicit bounds hypotheses. -/
def Items.node (s : Items) (i : Nat) : ItemNode :=
  s.nodes.getD i ⟨0, 0⟩

/-- The field assignment `self.nodes[i].next = v`. -/
def Items.setNext (s : Items) (i v : Nat) : Items :=
  ⟨s.nodes.set i { s.node i with next := v }⟩

/-- The field assignment `self.nodes[i].previous = v`. -/
def Items.setPrevious (s : Items) (i v : Nat) : Items :=
  ⟨s.nodes.set i { s.node i with previous := v }⟩

/-- `Items::new(size)`: a boxed slice of `size + 1` nodes; the loop sets
`node.previous = index.wrapping_sub(1)` and `node.next =
index.wrapping_add(1)`, then the first node's `previous` is set to
`nodes.len() - 1` and the last node's `next` to `0`. -/
def Items.new (size : Nat) : Items :=
  let s : Items :=
    ⟨(List.range (size + 1)).map
      (fun index => ⟨(index + (USIZE - 1)) % USIZE, (index + 1) % USIZE⟩)⟩
  let s := s.setPrevious 0 (s.nodes.length - 1)
  s.setNext size 0

/-- `struct Item { end: usize, current: usize, list: &mut Items }` from
`src/lists.rs`: the cursor over the item ring.  The borrowed list is
passed separately to each operation; `end` is spelled `end_` because
`end` is a Lean keyword. -/
structure Item where
  end_ : Nat
  current : Nat
deriving DecidableEq, Repr

/-- `Items::items()`: the full-traversal cursor, anchored at the sentinel
(`current = 0`) with `end = self.nodes.first().previous`. -/
def Items.items (s : Items) : Item :=
  ⟨(s.node 0).previous, 0⟩

/-- `type Index = std::num::NonZeroUsize` from `src/lists.rs`: the index
type accepted by `Items::item`, which excludes `0` by construction. -/
def Index := {n : Nat // n ≠ 0}

/-- The cursor built by `Items::item(index)` once the bound check has
passed: `current = index`, `end = self.nodes[index].previous`. -/
def Items.itemAt (s : Items) (index : Nat) : Item :=
  ⟨(s.node index).previous, index⟩

/-- `Items::item(index)`: reading `self.nodes[index.get()].previous`
panics when `index` is past the end of the node array, before any cursor
is produced; the panic is modelled by `none`. -/
def Items.item (s : Items) (index : Index) : Option Item :=
  if index.val < s.nodes.length then some (s.itemAt index.val) else none

/-- `Item::remove()`: read `previous`/`next` of the current node (through
`Deref`, i.e. from the array at call time) and redirect the two
neighbours at each other. -/
def Item.remove (s : Items) (c : Item) : Items :=
  let previous := (s.node c.current).previous
  let next := (s.node c.current).next
  (s.setNext previous next).setPrevious next previous

/-- `Item::reinsert()`: read `previous`/`next` of the current node (again
from the array at call time) and point both neighbours back at
`current`. -/
def Item.reinsert (s : Items) (c : Item) : Items :=
  let previous := (s.node c.current).previous
  let next := (s.node c.current).next
  (s.setNext previous c.current).setPrevious next c.current

/-- `<Item as Iterator>::next()`: stop when `current == end`, otherwise
advance `current` to `self.list[current].next` and yield. -/
def Item.next (s : Items) (c : Item) : Option Item :=
  if c.current = c.end_ then none
  else some { c with current := (s.node c.current).next }

/-- Fuel-bounded traversal trace: the list of `current` values after each
yield of the iterator.  `none` models a traversal that does not terminate
within the given fuel. -/
def Item.traceAux (s : Items) : Nat → Item → Option (List Nat)
  | 0, _ => none
  | fuel + 1, c =>
    match Item.next s c with
    | none => some []
    | some c' => (Item.traceAux s fuel c').map (c'.current :: ·)

/-- The trace of a full run of the cursor's iterator.  A traversal of a
well-formed ring visits pairwise distinct nodes, hence terminates within
`s.nodes.length + 1` steps; longer (cyclic, diverging) runs give `none`. -/
def Item.trace (s : Items) (c : Item) : Option (List Nat) :=
  Item.traceAux s (s.nodes.length + 1) c

/-- `Iterator::count()` on the cursor: the number of yields of a full
run, i.e. the length of the trace. -/
def Item.count (s : Items) (c : Item) : Option Nat :=
  (Item.trace s c).map List.length

/-- The compound `a.item(k).remove()` with an in-bounds, per-operation
cursor. -/
def removeItem (s : Items) (k : Nat) : Items :=
  Item.remove s (s.itemAt k)

/-- The compound `a.item(k).reinsert()` with an in-bounds, per-operation
cursor. -/
def reinsertItem (s : Items) (k : Nat) : Items :=
  Item.reinsert s (s.itemAt k)

/-- A sequence of removals, one fresh cursor per operation. -/
def removeFold (s : Items) (ks : List Nat) : Items :=
  ks.foldl removeItem s

/-- A sequence of reinsertions, one fresh cursor per operation. -/
def reinsertFold (s : Items) (ks : List Nat) : Items :=
  ks.foldl reinsertItem s

/-- Index `k` is a live, coherently linked member of the ring: it is in
bounds, its recorded neighbours are in bounds, and both neighbours point
back at `k`. -/
def wellLinked (s : Items) (k : Nat) : Prop :=
  k < s.nodes.length ∧
  (s.node k).previous < s.nodes.length ∧
  (s.node k).next < s.nodes.length ∧
  (s.node (s.node k).previous).next = k ∧
  (s.node (s.node k).next).previous = k

instance (s : Items) (k : Nat) : Decidable (wellLinked s k) := by
  unfold wellLinked; infer_instance

/-- Every index of the sequence is live at the moment it is removed. -/
def removableChain (s : Items) : List Nat → Prop
  | [] => True
  | k :: ks => wellLinked s k ∧ removableChain (removeItem s k) ks

instance instDecidableRemovableChain (s : Items) (ks : List Nat) :
    Decidable (removableChain s ks) :=
  match ks with
  | [] => isTrue trivial
  | k :: ks =>
    have : Decidable (removableChain (removeItem s k) ks) :=
      instDecidableRemovableChain (removeItem s k) ks
    inferInstanceAs (Decidable (_ ∧ _))

/-- `chain s a l b`: starting from index `a`, successively following the
`next` field visits exactly the indices of `l` and arrives at `b`. -/
def chain (s : Items) : Nat → List Nat → Nat → Prop
  | a, [], b => a = b
  | a, x :: xs, b => (s.node a).next = x ∧ chain s x xs b

instance instDecidableChain (s : Items) (a : Nat) (l : List Nat) (b : Nat) :
    Decidable (chain s a l b) :=
  match l with
  | [] => inferInstanceAs (Decidable (a = b))
  | x :: xs =>
    have : Decidable (chain s x xs b) := instDecidableChain s x xs b
    inferInstanceAs (Decidable (_ ∧ _))

/-- The hypothetical `reinsert` of claim C6: write `nodes[p].next = current`
and `nodes[q].previous = current` for externally supplied (captured)
neighbour values `p`, `q` instead of values re-read from the array. -/
def reinsertCaptured (s : Items) (c : Item) (p q : Nat) : Items :=
  (s.setNext p c.current).setPrevious q c.current

/-- Zero or more iterator steps of a cursor over a fixed ring. -/
def cursorSteps (s : Items) : Item → Item → Prop :=
  Relation.ReflTransGen (fun c c' => Item.next s c = some c')

/-- Claim C6 as stated: for every cursor obtained from `item(index)`, at
any point of its iteration, `reinsert()` performs its two writes using
the neighbour values captured when the cursor was constructed. -/
def reinsertUsesCapturedNeighbors : Prop :=
  ∀ (s : Items) (i : Nat), i < s.nodes.length →
    ∀ c', cursorSteps s (s.itemAt i) c' →
      Item.reinsert s c' =
        reinsertCaptured s c' ((s.node i).previous) ((s.node i).next)

/-- The ring state after removing items `1, …, k` (in increasing index
order, one fresh cursor per removal) from a freshly built ring of `n`
items: the sentinel's `next` has advanced to `k + 1`, every node up to
`k + 1` has had its `previous` rewritten to `0`, and all other fields
still carry their construction values. -/
def Rstate (n k : Nat) : Items :=
  ⟨(List.range (n + 1)).map (fun j =>
    if j = 0 then ⟨if k = n then 0 else n, (k + 1) % (n + 1)⟩
    else ⟨if j ≤ k + 1 then 0 else j - 1, (j + 1) % (n + 1)⟩)⟩

/-- The ring state after reinserting items `1, …, k` (in increasing index
order) into `Rstate n n`, the fully emptied ring. -/
def Sstate (n k : Nat) : Items :=
  ⟨(List.range (n + 1)).map (fun j =>
    if j = 0 then ⟨if k = n then n else 0, if 1 ≤ k then 1 else 0⟩
    else ⟨if j ≤ k + 1 then j - 1 else 0, (j + 1) % (n + 1)⟩)⟩

/-- `struct Link { next, previous }` from `src/list.rs`: a pair of
optional neighbour references, here node identifiers in an arena. -/
structure Link where
  next : Option Nat
  previous : Option Nat
deriving DecidableEq, Repr

/-- `Link::uninitialized()`: both neighbour slots start as `None`. -/
def Link.uninitialized : Link :=
  ⟨none, none⟩

/-- The arena of generic-list nodes: every node identifier carries its
`Link`.  This replaces the source's same-lifetime references by
identifiers; nodes the program never touched stay uninitialized. -/
def GState := Nat → Link

instance : Inhabited GState := ⟨fun _ => Link.uninitialized⟩

/-- `LinkedList::set_next`. -/
def LinkedList.set_next (s : GState) (i : Nat) (v : Option Nat) : GState :=
  fun j => if j = i then { s i with next := v } else s j

/-- `LinkedList::set_previous`. -/
def LinkedList.set_previous (s : GState) (i : Nat) (v : Option Nat) : GState :=
  fun j => if j = i then { s i with previous := v } else s j

/-- `LinkedList::next()`: unwraps the neighbour slot, panicking on an
unconnected node; the panic is modelled by `none`. -/
def LinkedList.next (s : GState) (i : Nat) : Option Nat :=
  (s i).next

/-- `LinkedList::previous()`: as `next()`, with `none` for the panic. -/
def LinkedList.previous (s : GState) (i : Nat) : Option Nat :=
  (s i).previous

/-- `LinkedList::is_valid()`: both neighbour slots are populated. -/
def LinkedList.is_valid (s : GState) (i : Nat) : Bool :=
  (s i).next.isSome && (s i).previous.isSome

/-- `LinkedList::connect_self()`: `set_next(self); set_previous(self)`. -/
def LinkedList.connect_self (s : GState) (i : Nat) : GState :=
  LinkedList.set_previous (LinkedList.set_next s i (some i)) i (some i)

/-- `LinkedList::prepend(node)` with receiver `x` and argument `j`,
following the source's statement order (the second read of
`self.previous()` happens after `node`'s slots are written); the `grow`
hook is the trait's default no-op. -/
def LinkedList.prepend (s : GState) (x j : Nat) : Option GState := do
  let a ← (s x).previous
  let s1 := LinkedList.set_previous s j (some a)
  let s2 := LinkedList.set_next s1 j (some x)
  let b ← (s2 x).previous
  let s3 := LinkedList.set_next s2 b (some j)
  return LinkedList.set_previous s3 x (some j)

/-- `LinkedList::remove()`: `self.next().set_previous(self.previous());
self.previous().set_next(self.next())`, with the second statement's
reads performed after the first statement's write; the `shrink` hook is
the trait's default no-op. -/
def LinkedList.remove (s : GState) (x : Nat) : Option GState := do
  let b ← (s x).next
  let a ← (s x).previous
  let s1 := LinkedList.set_previous s b (some a)
  let a2 ← (s1 x).previous
  let b2 ← (s1 x).next
  return LinkedList.set_next s1 a2 (some b2)

/-- `LinkedList::reinsert()`: `self.next().set_previous(self);
self.previous().set_next(self)`, the second read happening after the
first write; the `grow` hook is the trait's default no-op. -/
def LinkedList.reinsert (s : GState) (x : Nat) : Option GState := do
  let b ← (s x).next
  let s1 := LinkedList.set_previous s b (some x)
  let a ← (s1 x).previous
  return LinkedList.set_next s1 a (some x)

/-- One cyclic adjacency: `a`'s `next` names `b` and `b`'s `previous`
names `a`. -/
def ringStep (s : GState) (a b : Nat) : Prop :=
  LinkedList.next s a = some b ∧ LinkedList.previous s b = some a

instance (s : GState) (a b : Nat) : Decidable (ringStep s a b) := by
  unfold ringStep; infer_instance

/-- `cl` enumerates one full cycle: each entry is linked to the entry at
the cyclically following position, in both directions. -/
def CycIdx (s : GState) (cl : List Nat) : Prop :=
  ∀ i, i < cl.length → ringStep s (cl.getD i 0) (cl.getD ((i + 1) % cl.length) 0)

instance (s : GState) (cl : List Nat) : Decidable (CycIdx s cl) := by
  unfold CycIdx; exact Nat.decidableBallLT _ _

/-- The members `l` form a single cycle under `next`, traced in reverse
by `previous`: some duplicate-free enumeration of exactly the members is
cyclically linked. -/
def Cyc (s : GState) (l : List Nat) : Prop :=
  l.Nodup ∧ ∃ cl, cl.Perm l ∧ CycIdx s cl

/-- States reachable by `connect_self`, `prepend`, `remove`, `reinsert`
with reinsertions in exact reverse order of removals (the pending-removal
stack is popped at its head), and `prepend` allowed at any time — the
discipline exactly as claim C5 states it.  `l` tracks the current
members, `st` the removed-but-not-reinserted nodes, most recent first. -/
inductive ReachClaim : GState → List Nat → List Nat → Prop
  | init (s : GState) (i : Nat) : ReachClaim (LinkedList.connect_self s i) [i] []
  | prepend {s l st x j s'} : ReachClaim s l st → x ∈ l → j ∉ l → j ∉ st →
      LinkedList.prepend s x j = some s' → ReachClaim s' (j :: l) st
  | remove {s l st x s'} : ReachClaim s l st → x ∈ l →
      LinkedList.remove s x = some s' → ReachClaim s' (l.erase x) (x :: st)
  | reinsert {s l st x s'} : ReachClaim s l (x :: st) →
      LinkedList.reinsert s x = some s' → ReachClaim s' (x :: l) st

/-- As `ReachClaim`, but with the amended discipline: `prepend` is only
performed while no removal is outstanding. -/
inductive ReachD : GState → List Nat → List Nat → Prop
  | init (s : GState) (i : Nat) : ReachD (LinkedList.connect_self s i) [i] []
  | prepend {s l x j s'} : ReachD s l [] → x ∈ l → j ∉ l →
      LinkedList.prepend s x j = some s' → ReachD s' (j :: l) []
  | remove {s l st x s'} : ReachD s l st → x ∈ l →
      LinkedList.remove s x = some s' → ReachD s' (l.erase x) (x :: st)
  | reinsert {s l st x s'} : ReachD s l (x :: st) →
      LinkedList.reinsert s x = some s' → ReachD s' (x :: l) st

/-- The inductive invariant for `ReachD`: the current members form a
cycle, and every pending removal, taken in stack order, reinserts to a
state satisfying the invariant for the members it rejoins. -/
def Good : GState → List Nat → List Nat → Prop
  | s, l, [] => Cyc s l
  | s, l, x :: st => Cyc s l ∧ x ∉ l ∧
      ∃ sp lp, LinkedList.reinsert s x = some sp ∧ (x :: l).Perm lp ∧ Good sp lp st

/-- Claim C5 as stated: every configuration reachable under the
reverse-order reinsertion discipline alone has its members in a single
cycle. -/
def claimCycleInvariant : Prop :=
  ∀ s l st, ReachClaim s l st → ∃ cl, cl.Perm l ∧ CycIdx s cl

/-- All-uninitialized arena: no node passed through `connect_self` yet. -/
def gs0 : GState := fun _ => Link.uninitialized

/-- Counterexample trace for C5, step 1: node `0` connected to itself. -/
def gs1 : GState := LinkedList.connect_self gs0 0

/-- Step 2: node `1` prepended to node `0` (cycle `0 ↔ 1`). -/
def gs2 : GState := (LinkedList.prepend gs1 0 1).get (by rfl)

/-- Step 3: node `2` prepended to node `0` (cycle `0 → 1 → 2 → 0`). -/
def gs3 : GState := (LinkedList.prepend gs2 0 2).get (by rfl)

/-- Step 4: node `1` removed (cycle `0 ↔ 2`, removal outstanding). -/
def gs4 : GState := (LinkedList.remove gs3 1).get (by rfl)

/-- Step 5: node `3` prepended to node `2` while the removal of `1` is
outstanding (cycle `0 → 3 → 2 → 0`). -/
def gs5 : GState := (LinkedList.prepend gs4 2 3).get (by rfl)

/-- Step 6: node `1` reinserted — the unique outstanding removal, so
reinsertion order is trivially the reverse of removal order. -/
def gs6 : GState := (LinkedList.reinsert gs5 1).get (by rfl)

/-! ### Accessor lemmas for the item ring -/

theorem Items.length_setNext (s : Items) (i v : Nat) :
    (s.setNext i v).nodes.length = s.nodes.length := by
  simp [Items.setNext]

theorem Items.length_setPrevious (s : Items) (i v : Nat) :
    (s.setPrevious i v).nodes.length = s.nodes.length := by
  simp [Items.setPrevious]

theorem Items.node_setNext (s : Items) {i : Nat} (v : Nat) (hi : i < s.nodes.length) (j : Nat) :
    (s.setNext i v).node j = if j = i then ⟨(s.node i).previous, v⟩ else s.node j := by
  unfold Items.setNext Items.node
  rw [List.getD_eq_getElem?_getD, List.getD_eq_getElem?_getD, List.getElem?_set]
  by_cases h : i = j
  · subst h
    simp [hi]
  · have h2 : j ≠ i := fun e => h e.symm
    simp [h, h2]

theorem Items.node_setPrevious (s : Items) {i : Nat} (v : Nat) (hi : i < s.nodes.length)
    (j : Nat) :
    (s.setPrevious i v).node j = if j = i then ⟨v, (s.node i).next⟩ else s.node j := by
  unfold Items.setPrevious Items.node
  rw [List.getD_eq_getElem?_getD, List.getD_eq_getElem?_getD, List.getElem?_set]
  by_cases h : i = j
  · subst h
    simp [hi]
  · have h2 : j ≠ i := fun e => h e.symm
    simp [h, h2]

theorem Items.ext_node {s t : Items} (hlen : s.nodes.length = t.nodes.length)
    (h : ∀ j, j < s.nodes.length → s.node j = t.node j) : s = t := by
  cases s with
  | mk ls =>
    cases t with
    | mk lt =>
      congr 1
      apply List.ext_getElem (by simpa using hlen)
      intro i h1 h2
      have := h i (by simpa using h1)
      unfold Items.node at this
      simpa [List.getD_eq_getElem?_getD, List.getElem?_eq_getElem, h1, h2] using this

theorem USIZE_pos : 0 < USIZE := by
  norm_num [USIZE]

theorem Items.length_new (n : Nat) : (Items.new n).nodes.length = n + 1 := by
  unfold Items.new
  simp [Items.length_setNext, Items.length_setPrevious]

theorem wrap_sub_eq {i : Nat} (h1 : 1 ≤ i) (h2 : i < USIZE) :
    (i + (USIZE - 1)) % USIZE = i - 1 := by
  have hU := USIZE_pos
  have he : i + (USIZE - 1) = USIZE + (i - 1) := by omega
  rw [he, Nat.add_mod_left, Nat.mod_eq_of_lt (by omega)]

theorem add_mod_pred {n i : Nat} (h1 : 1 ≤ i) (h2 : i ≤ n) :
    (i + n) % (n + 1) = i - 1 := by
  have he : i + n = (n + 1) + (i - 1) := by omega
  rw [he, Nat.add_mod_left, Nat.mod_eq_of_lt (by omega)]

theorem Items.node_new (n : Nat) (hU : n + 1 ≤ USIZE) {i : Nat} (hi : i ≤ n) :
    (Items.new n).node i = ⟨(i + n) % (n + 1), (i + 1) % (n + 1)⟩ := by
  have hbase : ∀ j, j ≤ n →
      (Items.mk ((List.range (n + 1)).map
        (fun index => ⟨(index + (USIZE - 1)) % USIZE, (index + 1) % USIZE⟩))).node j =
      ⟨(j + (USIZE - 1)) % USIZE, (j + 1) % USIZE⟩ := by
    intro j hj
    unfold Items.node
    rw [List.getD_eq_getElem?_getD, List.getElem?_map, List.getElem?_range (by omega)]
    rfl
  generalize hB : (Items.mk ((List.range (n + 1)).map
      (fun index => ⟨(index + (USIZE - 1)) % USIZE, (index + 1) % USIZE⟩))) = base at hbase
  have hblen : base.nodes.length = n + 1 := by rw [← hB]; simp
  have hnew : Items.new n = (base.setPrevious 0 (base.nodes.length - 1)).setNext n 0 := by
    unfold Items.new
    rw [hB]
  have hmid : ∀ j, j ≤ n → (base.setPrevious 0 (base.nodes.length - 1)).node j =
      if j = 0 then ⟨n, (base.node 0).next⟩ else base.node j := by
    intro j hj
    rw [Items.node_setPrevious _ _ (by omega)]
    rw [hblen]
    rcases Nat.eq_zero_or_pos j with h | h
    · simp [h]
    · have : j ≠ 0 := by omega
      simp [this]
  rw [hnew, Items.node_setNext _ _ (by rw [Items.length_setPrevious, hblen]; omega)]
  by_cases hn : i = n
  · subst hn
    rw [if_pos rfl, hmid i (by omega)]
    by_cases h0 : i = 0
    · subst h0
      have hz : ((0 : Nat) + 0) % (0 + 1) = 0 := rfl
      simp
    · have h0' : 1 ≤ i := by omega
      rw [if_neg h0, hbase i (by omega)]
      have hp : (i + (USIZE - 1)) % USIZE = i - 1 := wrap_sub_eq h0' (by omega)
      have hq : (i + i) % (i + 1) = i - 1 := add_mod_pred h0' (by omega)
      have hr : (i + 1) % (i + 1) = 0 := Nat.mod_self _
      simp [hp, hq, hr]
  · rw [if_neg hn, hmid i (by omega)]
    by_cases h0 : i = 0
    · subst h0
      rw [if_pos rfl, hbase 0 (by omega)]
      have h1 : (1 : Nat) % USIZE = 1 := Nat.mod_eq_of_lt (by omega)
      have h3 : (0 + n) % (n + 1) = n := by
        rw [Nat.zero_add, Nat.mod_eq_of_lt (by omega)]
      have h4 : (0 + 1) % (n + 1) = 1 := by
        rw [Nat.zero_add]
        exact Nat.mod_eq_of_lt (by omega)
      simp [h1, h3, h4]
    · have h0' : 1 ≤ i := by omega
      rw [if_neg h0, hbase i (by omega)]
      have hp : (i + (USIZE - 1)) % USIZE = i - 1 := wrap_sub_eq h0' (by omega)
      have hq : (i + n) % (n + 1) = i - 1 := add_mod_pred h0' (by omega)
      have hr : (i + 1) % (n + 1) = i + 1 := Nat.mod_eq_of_lt (by omega)
      have hs : (i + 1) % USIZE = i + 1 := Nat.mod_eq_of_lt (by omega)
      simp [hp, hq, hr, hs]

theorem Items.length_remove (s : Items) (c : Item) :
    (Item.remove s c).nodes.length = s.nodes.length := by
  unfold Item.remove
  simp [Items.length_setNext, Items.length_setPrevious]

theorem Items.length_reinsert (s : Items) (c : Item) :
    (Item.reinsert s c).nodes.length = s.nodes.length := by
  unfold Item.reinsert
  simp [Items.length_setNext, Items.length_setPrevious]

theorem Items.node_remove (s : Items) (c : Item)
    (hp : (s.node c.current).previous < s.nodes.length)
    (hq : (s.node c.current).next < s.nodes.length) (j : Nat) :
    (Item.remove s c).node j =
      ⟨if j = (s.node c.current).next then (s.node c.current).previous
        else (s.node j).previous,
       if j = (s.node c.current).previous then (s.node c.current).next
        else (s.node j).next⟩ := by
  unfold Item.remove
  simp only []
  rw [Items.node_setPrevious _ _ (by rw [Items.length_setNext]; exact hq)]
  rw [Items.node_setNext _ _ hp (s.node c.current).next,
      Items.node_setNext _ _ hp j]
  by_cases hjq : j = (s.node c.current).next <;>
    by_cases hjp : j = (s.node c.current).previous <;>
      by_cases hqp : (s.node c.current).next = (s.node c.current).previous <;>
        simp_all

theorem Items.node_reinsert (s : Items) (c : Item)
    (hp : (s.node c.current).previous < s.nodes.length)
    (hq : (s.node c.current).next < s.nodes.length) (j : Nat) :
    (Item.reinsert s c).node j =
      ⟨if j = (s.node c.current).next then c.current else (s.node j).previous,
       if j = (s.node c.current).previous then c.current else (s.node j).next⟩ := by
  unfold Item.reinsert
  simp only []
  rw [Items.node_setPrevious _ _ (by rw [Items.length_setNext]; exact hq)]
  rw [Items.node_setNext _ _ hp (s.node c.current).next,
      Items.node_setNext _ _ hp j]
  by_cases hjq : j = (s.node c.current).next <;>
    by_cases hjp : j = (s.node c.current).previous <;>
      by_cases hqp : (s.node c.current).next = (s.node c.current).previous <;>
        simp_all

theorem length_removeItem (s : Items) (k : Nat) :
    (removeItem s k).nodes.length = s.nodes.length :=
  Items.length_remove s (s.itemAt k)

theorem length_reinsertItem (s : Items) (k : Nat) :
    (reinsertItem s k).nodes.length = s.nodes.length :=
  Items.length_reinsert s (s.itemAt k)

theorem node_removeItem (s : Items) {k : Nat}
    (hp : (s.node k).previous < s.nodes.length)
    (hq : (s.node k).next < s.nodes.length) (j : Nat) :
    (removeItem s k).node j =
      ⟨if j = (s.node k).next then (s.node k).previous else (s.node j).previous,
       if j = (s.node k).previous then (s.node k).next else (s.node j).next⟩ :=
  Items.node_remove s (s.itemAt k) hp hq j

theorem node_reinsertItem (s : Items) {k : Nat}
    (hp : (s.node k).previous < s.nodes.length)
    (hq : (s.node k).next < s.nodes.length) (j : Nat) :
    (reinsertItem s k).node j =
      ⟨if j = (s.node k).next then k else (s.node j).previous,
       if j = (s.node k).previous then k else (s.node j).next⟩ :=
  Items.node_reinsert s (s.itemAt k) hp hq j

theorem node_removeItem_self (s : Items) {k : Nat}
    (hp : (s.node k).previous < s.nodes.length)
    (hq : (s.node k).next < s.nodes.length) :
    (removeItem s k).node k = s.node k := by
  rw [node_removeItem s hp hq k]
  rcases hsk : s.node k with ⟨kp, kn⟩
  simp only [ItemNode.mk.injEq]
  constructor
  · split <;> rfl
  · split <;> rfl

theorem reinsert_remove_id {s : Items} {k : Nat} (h : wellLinked s k) :
    reinsertItem (removeItem s k) k = s := by
  obtain ⟨hk, hp, hq, hpk, hqk⟩ := h
  have hlen := length_removeItem s k
  have hself := node_removeItem_self s hp hq
  have hp2 : ((removeItem s k).node k).previous < (removeItem s k).nodes.length := by
    rw [hself, hlen]; exact hp
  have hq2 : ((removeItem s k).node k).next < (removeItem s k).nodes.length := by
    rw [hself, hlen]; exact hq
  apply Items.ext_node
  · rw [length_reinsertItem, hlen]
  · intro j hj
    rw [length_reinsertItem, hlen] at hj
    rw [node_reinsertItem _ hp2 hq2 j, hself, node_removeItem s hp hq j]
    rcases hsj : s.node j with ⟨jp, jn⟩
    simp only [ItemNode.mk.injEq]
    constructor
    · by_cases h1 : j = (s.node k).next
      · rw [if_pos h1]
        have hjp : (s.node (s.node k).next).previous = k := hqk
        rw [← h1, hsj] at hjp
        exact hjp.symm
      · rw [if_neg h1]
        simp only [if_neg h1]
    · by_cases h2 : j = (s.node k).previous
      · rw [if_pos h2]
        have hjn : (s.node (s.node k).previous).next = k := hpk
        rw [← h2, hsj] at hjn
        exact hjn.symm
      · rw [if_neg h2]
        simp only [if_neg h2]

theorem wellLinked_removeItem {s : Items} {k j : Nat} (hwk : wellLinked s k)
    (hwj : wellLinked s j) (hjk : j ≠ k) : wellLinked (removeItem s k) j := by
  obtain ⟨hk, hp, hq, hpk, hqk⟩ := hwk
  obtain ⟨hj, hpj, hqj, hpjn, hqjp⟩ := hwj
  have hlen := length_removeItem s k
  have hchar := node_removeItem s hp hq
  have hprev : ((removeItem s k).node j).previous =
      if j = (s.node k).next then (s.node k).previous else (s.node j).previous := by
    rw [hchar j]
  have hnext : ((removeItem s k).node j).next =
      if j = (s.node k).previous then (s.node k).next else (s.node j).next := by
    rw [hchar j]
  refine ⟨by rw [hlen]; exact hj, ?_, ?_, ?_, ?_⟩
  · rw [hlen, hprev]
    split <;> assumption
  · rw [hlen, hnext]
    split <;> assumption
  · rw [hprev]
    by_cases h1 : j = (s.node k).next
    · rw [if_pos h1, hchar ((s.node k).previous)]
      simp only [if_pos rfl]
      exact h1.symm
    · rw [if_neg h1, hchar ((s.node j).previous)]
      by_cases h2 : (s.node j).previous = (s.node k).previous
      · exfalso
        rw [h2, hpk] at hpjn
        exact hjk hpjn.symm
      · simp only [if_neg h2]
        exact hpjn
  · rw [hnext]
    by_cases h1 : j = (s.node k).previous
    · rw [if_pos h1, hchar ((s.node k).next)]
      simp only [if_pos rfl]
      exact h1.symm
    · rw [if_neg h1, hchar ((s.node j).next)]
      by_cases h2 : (s.node j).next = (s.node k).next
      · exfalso
        rw [h2, hqk] at hqjp
        exact hjk hqjp.symm
      · simp only [if_neg h2]
        exact hqjp

theorem traceAux_stop (s : Items) (fuel : Nat) (c : Item) (h : c.current = c.end_) :
    Item.traceAux s (fuel + 1) c = some [] := by
  unfold Item.traceAux Item.next
  rw [if_pos h]

theorem traceAux_step (s : Items) (fuel : Nat) (c : Item) (h : ¬ c.current = c.end_) :
    Item.traceAux s (fuel + 1) c =
      (Item.traceAux s fuel ⟨c.end_, (s.node c.current).next⟩).map
        ((s.node c.current).next :: ·) := by
  conv_lhs => unfold Item.traceAux Item.next
  rw [if_neg h]

theorem trace_of_chain (s : Items) (e : Nat) (l : List Nat) :
    ∀ (a fuel : Nat), chain s a l e → e ∉ (a :: l).dropLast → l.length < fuel →
      Item.traceAux s fuel ⟨e, a⟩ = some l := by
  induction l with
  | nil =>
    intro a fuel hc _ hf
    obtain ⟨f, rfl⟩ : ∃ f, fuel = f + 1 := ⟨fuel - 1, by omega⟩
    exact traceAux_stop s f ⟨e, a⟩ hc
  | cons x xs ih =>
    intro a fuel hc hne hf
    obtain ⟨hax, hcx⟩ := hc
    obtain ⟨f, rfl⟩ : ∃ f, fuel = f + 1 := ⟨fuel - 1, by omega⟩
    have hdl : (a :: x :: xs).dropLast = a :: (x :: xs).dropLast := rfl
    have hane : a ≠ e := by
      intro h
      apply hne
      rw [hdl, h]
      exact List.mem_cons_self _ _
    rw [traceAux_step s f ⟨e, a⟩ hane]
    have hnext : (s.node (⟨e, a⟩ : Item).current).next = x := hax
    rw [hnext]
    rw [ih x f hcx ?_ (by simp at hf ⊢; omega)]
    · rfl
    · intro hmem
      apply hne
      rw [hdl]
      exact List.mem_cons_of_mem _ hmem

theorem chain_append {s : Items} {a b c : Nat} {l1 l2 : List Nat} :
    chain s a l1 b → chain s b l2 c → chain s a (l1 ++ l2) c := by
  induction l1 generalizing a with
  | nil =>
    intro h1 h2
    have : a = b := h1
    rw [List.nil_append, this]
    exact h2
  | cons x xs ih =>
    intro h1 h2
    obtain ⟨hx, hxs⟩ := h1
    exact ⟨hx, ih hxs h2⟩

theorem chain_incr {s : Items} (m : Nat) :
    ∀ a, (∀ j, a ≤ j → j < a + m → (s.node j).next = j + 1) →
      chain s a (List.range' (a + 1) m) (a + m) := by
  induction m with
  | zero =>
    intro a _
    exact (rfl : a = a + 0).symm ▸ (rfl : chain s a [] a = chain s a [] a) ▸ (by
      show chain s a (List.range' (a + 1) 0) (a + 0)
      exact (rfl : a = a + 0))
  | succ m ih =>
    intro a hstep
    rw [List.range'_succ]
    refine ⟨hstep a (Nat.le_refl a) (by omega), ?_⟩
    have := ih (a + 1) (fun j h1 h2 => hstep j (by omega) (by omega))
    have harith : a + 1 + m = a + (m + 1) := by omega
    rw [harith] at this
    exact this

theorem next_new {n : Nat} (hU : n + 1 ≤ USIZE) {j : Nat} (hj : j < n) :
    ((Items.new n).node j).next = j + 1 := by
  rw [Items.node_new n hU (by omega)]
  exact Nat.mod_eq_of_lt (by omega)

theorem prev0_new {n : Nat} (hU : n + 1 ≤ USIZE) :
    ((Items.new n).node 0).previous = n := by
  rw [Items.node_new n hU (by omega)]
  show (0 + n) % (n + 1) = n
  rw [Nat.zero_add]
  exact Nat.mod_eq_of_lt (by omega)

theorem chain_new (n : Nat) (hU : n + 1 ≤ USIZE) :
    chain (Items.new n) 0 (List.range' 1 n) n := by
  have := chain_incr (s := Items.new n) n 0
    (fun j _ h2 => next_new hU (by omega))
  simpa using this

theorem range'_one_concat (m : Nat) :
    List.range' 1 (m + 1) = List.range' 1 m ++ [m + 1] := by
  have := @List.range'_concat 1 1 m
  simpa [Nat.add_comm] using this

theorem end_not_mem_dropLast_new (n : Nat) :
    n ∉ (0 :: List.range' 1 n).dropLast := by
  rcases Nat.eq_zero_or_pos n with hn | hn
  · subst hn; simp
  · obtain ⟨m, rfl⟩ : ∃ m, n = m + 1 := ⟨n - 1, by omega⟩
    rw [range'_one_concat, ← List.cons_append, List.dropLast_concat]
    intro hmem
    rcases List.mem_cons.mp hmem with h | h
    · omega
    · have := List.mem_range'_1.mp h
      omega

theorem trace_new (n : Nat) (hU : n + 1 ≤ USIZE) :
    Item.trace (Items.new n) (Items.items (Items.new n)) = some (List.range' 1 n) := by
  have hcur : Items.items (Items.new n) = ⟨n, 0⟩ := by
    unfold Items.items
    rw [prev0_new hU]
  unfold Item.trace
  rw [hcur, Items.length_new]
  exact trace_of_chain _ _ _ _ _ (chain_new n hU) (end_not_mem_dropLast_new n)
    (by simp [List.length_range']; omega)

theorem count_new (n : Nat) (hU : n + 1 ≤ USIZE) :
    Item.count (Items.new n) (Items.items (Items.new n)) = some n := by
  unfold Item.count
  rw [trace_new n hU]
  simp [List.length_range']

theorem wellLinked_new (n : Nat) (hU : n + 1 ≤ USIZE) {k : Nat} (hk : k ≤ n) :
    wellLinked (Items.new n) k := by
  have hnode := fun {i} (hi : i ≤ n) => Items.node_new n hU hi
  have hmod : ∀ i : Nat, (i % (n + 1)) ≤ n := fun i => by
    have := Nat.mod_lt i (y := n + 1) (by omega)
    omega
  refine ⟨?_, ?_, ?_, ?_, ?_⟩
  · rw [Items.length_new]; omega
  · rw [Items.length_new, hnode hk]
    have := hmod (k + n)
    show (k + n) % (n + 1) < n + 1
    omega
  · rw [Items.length_new, hnode hk]
    have := hmod (k + 1)
    show (k + 1) % (n + 1) < n + 1
    omega
  · rw [hnode hk]
    show ((Items.new n).node ((k + n) % (n + 1))).next = k
    rw [hnode (hmod _)]
    show ((k + n) % (n + 1) + 1) % (n + 1) = k
    rw [Nat.mod_add_mod]
    have he : k + n + 1 = k + (n + 1) := by omega
    rw [he, Nat.add_mod_right]
    exact Nat.mod_eq_of_lt (by omega)
  · rw [hnode hk]
    show ((Items.new n).node ((k + 1) % (n + 1))).previous = k
    rw [hnode (hmod _)]
    show ((k + 1) % (n + 1) + n) % (n + 1) = k
    rw [Nat.mod_add_mod]
    have he : k + 1 + n = k + (n + 1) := by omega
    rw [he, Nat.add_mod_right]
    exact Nat.mod_eq_of_lt (by omega)

theorem trace_removeItem_new (n k : Nat) (hU : n + 1 ≤ USIZE) (hk1 : 1 ≤ k)
    (hkn : k ≤ n) :
    Item.trace (removeItem (Items.new n) k) (Items.items (removeItem (Items.new n) k)) =
      some (List.range' 1 (k - 1) ++ List.range' (k + 1) (n - k)) := by
  have hp : ((Items.new n).node k).previous = k - 1 := by
    rw [Items.node_new n hU hkn]
    exact add_mod_pred hk1 hkn
  have hq : ((Items.new n).node k).next = (k + 1) % (n + 1) := by
    rw [Items.node_new n hU hkn]
  have hplen : ((Items.new n).node k).previous < (Items.new n).nodes.length := by
    rw [hp, Items.length_new]; omega
  have hqlen : ((Items.new n).node k).next < (Items.new n).nodes.length := by
    rw [hq, Items.length_new]
    exact Nat.mod_lt _ (by omega)
  have hchar := node_removeItem (Items.new n) hplen hqlen
  have hnext' : ∀ j, j ≤ n → ((removeItem (Items.new n) k).node j).next =
      if j = k - 1 then (k + 1) % (n + 1) else (j + 1) % (n + 1) := by
    intro j hj
    rw [hchar j]
    show (if j = ((Items.new n).node k).previous then ((Items.new n).node k).next
      else ((Items.new n).node j).next) = _
    rw [hp, hq, Items.node_new n hU hj]
  have he0 : ((removeItem (Items.new n) k).node 0).previous =
      if k = n then k - 1 else n := by
    rw [hchar 0]
    show (if 0 = ((Items.new n).node k).next then ((Items.new n).node k).previous
      else ((Items.new n).node 0).previous) = _
    rw [hp, hq, prev0_new hU]
    by_cases hkn' : k = n
    · subst hkn'
      simp [Nat.mod_self]
    · have hlt : (k + 1) % (n + 1) = k + 1 := Nat.mod_eq_of_lt (by omega)
      rw [hlt, if_neg (by omega), if_neg hkn']
  have hlen' : (removeItem (Items.new n) k).nodes.length = n + 1 := by
    rw [length_removeItem, Items.length_new]
  have hcur : Items.items (removeItem (Items.new n) k) =
      ⟨if k = n then k - 1 else n, 0⟩ := by
    unfold Items.items
    rw [he0]
  have hchain1 : chain (removeItem (Items.new n) k) 0 (List.range' 1 (k - 1)) (k - 1) := by
    have := chain_incr (s := removeItem (Items.new n) k) (k - 1) 0
      (fun j _ h2 => by
        rw [hnext' j (by omega), if_neg (by omega)]
        exact Nat.mod_eq_of_lt (by omega))
    simpa using this
  unfold Item.trace
  rw [hcur, hlen']
  by_cases hkn' : k = n
  · subst hkn'
    have hempty : List.range' (k + 1) (k - k) = [] := by
      rw [Nat.sub_self]
      rfl
    rw [hempty, List.append_nil, if_pos rfl]
    apply trace_of_chain _ _ _ _ _ hchain1 ?_ ?_
    · exact end_not_mem_dropLast_new (k - 1)
    · simp [List.length_range']
      omega
  · rw [if_neg hkn']
    have hkltn : k < n := by omega
    have hq' : (k + 1) % (n + 1) = k + 1 := Nat.mod_eq_of_lt (by omega)
    have hchain2 : chain (removeItem (Items.new n) k) (k - 1)
        (List.range' (k + 1) (n - k)) n := by
      obtain ⟨m, hm⟩ : ∃ m, n - k = m + 1 := ⟨n - k - 1, by omega⟩
      rw [hm, List.range'_succ]
      refine ⟨?_, ?_⟩
      · rw [hnext' (k - 1) (by omega), if_pos rfl]
        exact hq'
      · have := chain_incr (s := removeItem (Items.new n) k) m (k + 1)
          (fun j h1 h2 => by
            rw [hnext' j (by omega), if_neg (by omega)]
            exact Nat.mod_eq_of_lt (by omega))
        have harith : k + 1 + m = n := by omega
        rw [harith] at this
        exact this
    apply trace_of_chain _ _ _ _ _ (chain_append hchain1 hchain2) ?_ ?_
    · obtain ⟨m, hm⟩ : ∃ m, n - k = m + 1 := ⟨n - k - 1, by omega⟩
      have hsplit : List.range' (k + 1) (n - k) = List.range' (k + 1) m ++ [n] := by
        rw [hm]
        have := @List.range'_concat 1 (k + 1) m
        simpa [show k + 1 + m = n by omega] using this
      rw [hsplit, ← List.append_assoc, ← List.cons_append, List.dropLast_concat]
      intro hmem
      rcases List.mem_cons.mp hmem with h | h
      · omega
      · rcases List.mem_append.mp h with h' | h'
        · have := List.mem_range'_1.mp h'
          omega
        · have := List.mem_range'_1.mp h'
          omega
    · simp [List.length_range']
      omega

theorem count_removeItem_new (n k : Nat) (hU : n + 1 ≤ USIZE) (hk1 : 1 ≤ k)
    (hkn : k ≤ n) :
    Item.count (removeItem (Items.new n) k) (Items.items (removeItem (Items.new n) k)) =
      some (n - 1) := by
  unfold Item.count
  rw [trace_removeItem_new n k hU hk1 hkn]
  simp [List.length_range']
  omega

theorem removableChain_roundTrip : ∀ (ks : List Nat) (s : Items),
    removableChain s ks → reinsertFold (removeFold s ks) ks.reverse = s := by
  intro ks
  induction ks with
  | nil => intro s _; rfl
  | cons k ks ih =>
    intro s h
    obtain ⟨hw, hrest⟩ := h
    show reinsertFold (removeFold (removeItem s k) ks) (List.reverse (k :: ks)) = s
    rw [List.reverse_cons]
    unfold reinsertFold
    rw [List.foldl_append]
    show reinsertItem (reinsertFold (removeFold (removeItem s k) ks) ks.reverse) k = s
    rw [ih (removeItem s k) hrest]
    exact reinsert_remove_id hw

/-- C1: for every ring state and every sequence of removals of items that
are live (well linked) at the moment of their removal, reinserting the
removed items in exact reverse order restores the ring bit for bit; in
particular, on a freshly built ring of `n` items, removing live item `k`
drops `items().count()` to `n - 1`, and reinserting `k` with no other
operation in between restores the exact pre-removal array (hence count
`n` and every node's `previous`/`next`). -/
theorem claim_C1 :
    (∀ (s : Items) (ks : List Nat), removableChain s ks →
        reinsertFold (removeFold s ks) ks.reverse = s) ∧
    (∀ n k : Nat, 1 ≤ k → k ≤ n → n + 1 ≤ USIZE →
        Item.count (removeItem (Items.new n) k)
            (Items.items (removeItem (Items.new n) k)) = some (n - 1) ∧
        reinsertItem (removeItem (Items.new n) k) k = Items.new n ∧
        Item.count (reinsertItem (removeItem (Items.new n) k) k)
            (Items.items (reinsertItem (removeItem (Items.new n) k) k)) = some n) := by
  constructor
  · intro s ks h
    exact removableChain_roundTrip ks s h
  · intro n k h1 h2 hU
    have hrestore : reinsertItem (removeItem (Items.new n) k) k = Items.new n :=
      reinsert_remove_id (wellLinked_new n hU (by omega))
    refine ⟨count_removeItem_new n k hU h1 h2, hrestore, ?_⟩
    rw [hrestore]
    exact count_new n hU

theorem claim_C1_witness :
    removableChain (Items.new 2) [1, 2] ∧
    reinsertFold (removeFold (Items.new 2) [1, 2]) [1, 2].reverse = Items.new 2 ∧
    Item.count (removeItem (Items.new 2) 1)
      (Items.items (removeItem (Items.new 2) 1)) = some 1 ∧
    reinsertItem (removeItem (Items.new 2) 1) 1 = Items.new 2 := by
  refine ⟨by decide, claim_C1.1 (Items.new 2) [1, 2] (by decide), ?_, ?_⟩
  · exact (claim_C1.2 2 1 (by decide) (by decide) (by decide)).1
  · exact (claim_C1.2 2 1 (by decide) (by decide) (by decide)).2.1

/-- C3: for every `n` in the `usize` range, `Items::new(n)` produces an
array of exactly `n + 1` nodes in which node `i` has
`previous = (i - 1) mod (n + 1)` (written `(i + n) % (n + 1)` over `Nat`)
and `next = (i + 1) mod (n + 1)`. -/
theorem claim_C3 (n : Nat) (hU : n + 1 ≤ USIZE) :
    (Items.new n).nodes.length = n + 1 ∧
    ∀ i, i ≤ n →
      ((Items.new n).node i).previous = (i + n) % (n + 1) ∧
      ((Items.new n).node i).next = (i + 1) % (n + 1) := by
  refine ⟨Items.length_new n, fun i hi => ?_⟩
  rw [Items.node_new n hU hi]
  exact ⟨rfl, rfl⟩

theorem claim_C3_witness :
    (Items.new 2).nodes.length = 3 ∧
    ((Items.new 2).node 0).previous = 2 ∧ ((Items.new 2).node 0).next = 1 ∧
    ((Items.new 2).node 2).previous = 1 ∧ ((Items.new 2).node 2).next = 0 := by
  have h := claim_C3 2 (by decide)
  exact ⟨h.1, (h.2 0 (by decide)).1, (h.2 0 (by decide)).2,
    (h.2 2 (by decide)).1, (h.2 2 (by decide)).2⟩

/-- C4: on a freshly built ring of `n` items, the cursor returned by
`items()` yields exactly one step per live item, visiting
`1, 2, …, n` in ring order — it starts at the sentinel's successor `1`,
ends at the sentinel's predecessor `n`, and never visits the sentinel
`0` — and `items().count()` is `n`. -/
theorem claim_C4 (n : Nat) (hU : n + 1 ≤ USIZE) :
    Item.trace (Items.new n) (Items.items (Items.new n)) = some (List.range' 1 n) ∧
    Item.count (Items.new n) (Items.items (Items.new n)) = some n :=
  ⟨trace_new n hU, count_new n hU⟩

theorem claim_C4_witness :
    Item.trace (Items.new 3) (Items.items (Items.new 3)) = some [1, 2, 3] ∧
    Item.count (Items.new 3) (Items.items (Items.new 3)) = some 3 :=
  claim_C4 3 (by decide)

/-! ### Generic-list characterizations -/

theorem LinkedList.remove_eq {s : GState} {x a b : Nat}
    (hb : (s x).next = some b) (ha : (s x).previous = some a) :
    LinkedList.remove s x = some (fun j =>
      ⟨if j = a then some b else (s j).next,
       if j = b then some a else (s j).previous⟩) := by
  have h1 : (LinkedList.set_previous s b (some a) x).previous = some a := by
    unfold LinkedList.set_previous
    split <;> simp [ha]
  have h2 : (LinkedList.set_previous s b (some a) x).next = some b := by
    unfold LinkedList.set_previous
    split
    · rename_i h
      subst h
      exact hb
    · exact hb
  unfold LinkedList.remove
  rw [hb, ha]
  show (LinkedList.set_previous s b (some a) x).previous.bind _ = _
  rw [h1]
  show (LinkedList.set_previous s b (some a) x).next.bind _ = _
  rw [h2]
  show some (LinkedList.set_next (LinkedList.set_previous s b (some a)) a (some b)) = _
  congr 1
  funext j
  unfold LinkedList.set_next LinkedList.set_previous
  by_cases hja : j = a <;> by_cases hjb : j = b <;>
    simp [hja, hjb, Link.mk.injEq, hb, ha] <;> split <;> simp_all

theorem Items.node_remove_current (s : Items) (c : Item)
    (hp : (s.node c.current).previous < s.nodes.length)
    (hq : (s.node c.current).next < s.nodes.length) :
    (Item.remove s c).node c.current = s.node c.current := by
  rw [Items.node_remove s c hp hq c.current]
  rcases hsk : s.node c.current with ⟨kp, kn⟩
  simp only [ItemNode.mk.injEq]
  exact ⟨by split <;> rfl, by split <;> rfl⟩

/-- C2: both removal operations modify only the two neighbours' link
slots — the predecessor's `next` becomes the successor and the
successor's `previous` becomes the predecessor — and the removed node's
own `next`/`previous` are left with their pre-removal values.  The first
conjunct characterizes `LinkedList::remove` on the generic list, the
second the item-ring cursor's `Item::remove`. -/
theorem claim_C2 :
    (∀ (s : GState) (x a b : Nat) (s' : GState),
        (s x).next = some b → (s x).previous = some a →
        LinkedList.remove s x = some s' →
        s' x = s x ∧
        ∀ j, (s' j).next = (if j = a then some b else (s j).next) ∧
             (s' j).previous = (if j = b then some a else (s j).previous)) ∧
    (∀ (s : Items) (c : Item),
        c.current < s.nodes.length →
        (s.node c.current).previous < s.nodes.length →
        (s.node c.current).next < s.nodes.length →
        (Item.remove s c).node c.current = s.node c.current ∧
        ∀ j, j < s.nodes.length →
          ((Item.remove s c).node j).next =
            (if j = (s.node c.current).previous then (s.node c.current).next
             else (s.node j).next) ∧
          ((Item.remove s c).node j).previous =
            (if j = (s.node c.current).next then (s.node c.current).previous
             else (s.node j).previous)) := by
  constructor
  · intro s x a b s' hb ha hrm
    rw [LinkedList.remove_eq hb ha] at hrm
    obtain rfl : s' = _ := (Option.some.inj hrm).symm
    refine ⟨?_, fun j => ⟨rfl, rfl⟩⟩
    have e1 : (if x = a then some b else (s x).next) = (s x).next := by
      split <;> simp [hb]
    have e2 : (if x = b then some a else (s x).previous) = (s x).previous := by
      split <;> simp [ha]
    show (⟨if x = a then some b else (s x).next,
      if x = b then some a else (s x).previous⟩ : Link) = s x
    rw [e1, e2]
  · intro s c _ hp hq
    refine ⟨Items.node_remove_current s c hp hq, fun j _ => ?_⟩
    rw [Items.node_remove s c hp hq j]
    exact ⟨rfl, rfl⟩

theorem claim_C2_witness :
    (LinkedList.remove gs3 1 = some gs4 ∧ gs4 1 = gs3 1 ∧
      (gs4 0).next = some 2 ∧ (gs4 2).previous = some 0) ∧
    ((Item.remove (Items.new 2) (Items.itemAt (Items.new 2) 1)).node 1 =
      (Items.new 2).node 1) := by
  have hb : (gs3 1).next = some 2 := by decide
  have ha : (gs3 1).previous = some 0 := by decide
  have hrm : LinkedList.remove gs3 1 = some gs4 := (Option.some_get _).symm
  have hgen := (claim_C2.1 gs3 1 0 2 gs4 hb ha hrm)
  refine ⟨⟨hrm, hgen.1, ?_, ?_⟩, ?_⟩
  · rw [(hgen.2 0).1]
    decide
  · rw [(hgen.2 2).2]
    decide
  · exact (claim_C2.2 (Items.new 2) (Items.itemAt (Items.new 2) 1)
      (by decide) (by decide) (by decide)).1

/-- C6 counterexample: the claim that `reinsert()` writes through
neighbour values captured at cursor construction is false.  On a fresh
2-item ring, take the cursor `item(1)` (captured neighbours `p = 0`,
`q = 2`), advance it one iterator step (to `current = 2`), and call
`reinsert()`: the code writes through the values re-read from
`nodes[2]` (`p = 1`, `q = 0`), leaving the array unchanged, while the
captured-value semantics would rewrite `nodes[0].next` and
`nodes[2].previous` to `2`. -/
theorem claim_C6_counterexample : ¬ reinsertUsesCapturedNeighbors := by
  intro h
  have hs : Item.next (Items.new 2) (Items.itemAt (Items.new 2) 1) = some ⟨0, 2⟩ := by
    decide
  have hstep : cursorSteps (Items.new 2) (Items.itemAt (Items.new 2) 1) ⟨0, 2⟩ :=
    Relation.ReflTransGen.single hs
  have heq := h (Items.new 2) 1 (by decide) ⟨0, 2⟩ hstep
  have hne : Item.reinsert (Items.new 2) ⟨0, 2⟩ ≠
      reinsertCaptured (Items.new 2) ⟨0, 2⟩ (((Items.new 2).node 1).previous)
        (((Items.new 2).node 1).next) := by decide
  exact hne heq

/-- C6 amended: `reinsert()` re-reads `p` and `q` from `nodes[current]`
at call time (the cursor stores no captured neighbour pair).  When the
only intervening operation since the cursor's construction is its own
`remove()` — the intended usage — the re-read values coincide with the
construction-time ones, because `remove()` leaves `nodes[current]`
unchanged, so the two writes then match the captured-value
description. -/
theorem claim_C6 (s : Items) (k : Nat)
    (hp : (s.node k).previous < s.nodes.length)
    (hq : (s.node k).next < s.nodes.length) :
    Item.reinsert (removeItem s k) (Items.itemAt s k) =
      reinsertCaptured (removeItem s k) (Items.itemAt s k)
        ((s.node k).previous) ((s.node k).next) := by
  have hself := node_removeItem_self s hp hq
  show Items.setPrevious
      (Items.setNext (removeItem s k) (((removeItem s k).node k).previous) k)
      (((removeItem s k).node k).next) k =
    Items.setPrevious (Items.setNext (removeItem s k) ((s.node k).previous) k)
      ((s.node k).next) k
  rw [hself]

theorem claim_C6_witness :
    ((Items.new 2).node 1).previous < (Items.new 2).nodes.length ∧
    ((Items.new 2).node 1).next < (Items.new 2).nodes.length ∧
    Item.reinsert (removeItem (Items.new 2) 1) (Items.itemAt (Items.new 2) 1) =
      reinsertCaptured (removeItem (Items.new 2) 1) (Items.itemAt (Items.new 2) 1)
        (((Items.new 2).node 1).previous) (((Items.new 2).node 1).next) :=
  ⟨by decide, by decide, claim_C6 (Items.new 2) 1 (by decide) (by decide)⟩

/-- C7: a generic-list node that never passed through `connect_self()`
(both link slots still `None`) reports `is_valid() == false`, and both
neighbour accessors fail (modelled by `none`, standing for the
`unwrap` panic) instead of returning a node. -/
theorem claim_C7 (s : GState) (i : Nat) (h : s i = Link.uninitialized) :
    LinkedList.is_valid s i = false ∧
    LinkedList.next s i = none ∧ LinkedList.previous s i = none := by
  unfold LinkedList.is_valid LinkedList.next LinkedList.previous
  rw [h]
  exact ⟨rfl, rfl, rfl⟩

theorem claim_C7_witness :
    gs0 5 = Link.uninitialized ∧
    (LinkedList.is_valid gs0 5 = false ∧
      LinkedList.next gs0 5 = none ∧ LinkedList.previous gs0 5 = none) :=
  ⟨rfl, claim_C7 gs0 5 rfl⟩

/-- C8: the index parameter of `item()` is `NonZeroUsize`, so the
sentinel index `0` can never be passed to it; and an index past the end
of the node array makes `item()` fail loudly while building the cursor
(the panic is modelled by `none`) instead of returning a cursor. -/
theorem claim_C8 :
    (∀ index : Index, index.val ≠ 0) ∧
    (∀ (s : Items) (index : Index), s.nodes.length ≤ index.val →
      Items.item s index = none) := by
  constructor
  · exact fun index => index.property
  · intro s index h
    unfold Items.item
    rw [if_neg (by omega)]

theorem claim_C8_witness :
    (⟨3, by decide⟩ : Index).val ≠ 0 ∧
    (Items.new 1).nodes.length ≤ 3 ∧
    Items.item (Items.new 1) ⟨3, by decide⟩ = none :=
  ⟨claim_C8.1 ⟨3, by decide⟩, by decide,
    claim_C8.2 (Items.new 1) ⟨3, by decide⟩ (by decide)⟩

/-- C9: calling `remove()` on the cursor returned by `items()` before
any iteration step splices the sentinel itself out: with `p`/`q` the
sentinel's recorded predecessor and successor, it sets `nodes[p].next`
to `q` and `nodes[q].previous` to `p` (all other fields unchanged).  No
sentinel check runs on this path — the only hypotheses are the bounds
under which the source avoids an out-of-bounds panic. -/
theorem claim_C9 (s : Items) (_h0 : 0 < s.nodes.length)
    (hp : (s.node 0).previous < s.nodes.length)
    (hq : (s.node 0).next < s.nodes.length) :
    ∀ j, j < s.nodes.length →
      ((Item.remove s (Items.items s)).node j).next =
        (if j = (s.node 0).previous then (s.node 0).next else (s.node j).next) ∧
      ((Item.remove s (Items.items s)).node j).previous =
        (if j = (s.node 0).next then (s.node 0).previous else (s.node j).previous) := by
  intro j _
  have hchar : (Item.remove s (Items.items s)).node j =
      ⟨if j = (s.node 0).next then (s.node 0).previous else (s.node j).previous,
       if j = (s.node 0).previous then (s.node 0).next else (s.node j).next⟩ :=
    Items.node_remove s (Items.items s) hp hq j
  rw [hchar]
  exact ⟨rfl, rfl⟩

theorem claim_C9_witness :
    0 < (Items.new 3).nodes.length ∧
    ((Item.remove (Items.new 3) (Items.items (Items.new 3))).node 3).next = 1 ∧
    ((Item.remove (Items.new 3) (Items.items (Items.new 3))).node 1).previous = 3 := by
  have h := claim_C9 (Items.new 3) (by decide) (by decide) (by decide)
  refine ⟨by decide, ?_, ?_⟩
  · rw [(h 3 (by decide)).1]
    decide
  · rw [(h 1 (by decide)).2]
    decide

/-! ### The ascending remove / ascending reinsert experiment (C10) -/

theorem length_Rstate (n k : Nat) : (Rstate n k).nodes.length = n + 1 := by
  simp [Rstate]

theorem length_Sstate (n k : Nat) : (Sstate n k).nodes.length = n + 1 := by
  simp [Sstate]

theorem node_Rstate (n k : Nat) {j : Nat} (hj : j ≤ n) :
    (Rstate n k).node j =
      if j = 0 then ⟨if k = n then 0 else n, (k + 1) % (n + 1)⟩
      else ⟨if j ≤ k + 1 then 0 else j - 1, (j + 1) % (n + 1)⟩ := by
  unfold Rstate Items.node
  rw [List.getD_eq_getElem?_getD, List.getElem?_map, List.getElem?_range (by omega)]
  rfl

theorem node_Sstate (n k : Nat) {j : Nat} (hj : j ≤ n) :
    (Sstate n k).node j =
      if j = 0 then ⟨if k = n then n else 0, if 1 ≤ k then 1 else 0⟩
      else ⟨if j ≤ k + 1 then j - 1 else 0, (j + 1) % (n + 1)⟩ := by
  unfold Sstate Items.node
  rw [List.getD_eq_getElem?_getD, List.getElem?_map, List.getElem?_range (by omega)]
  rfl

theorem Rstate_zero (n : Nat) (hU : n + 1 ≤ USIZE) : Rstate n 0 = Items.new n := by
  apply Items.ext_node
  · rw [length_Rstate, Items.length_new]
  · intro j hj
    rw [length_Rstate] at hj
    rw [node_Rstate n 0 (by omega), Items.node_new n hU (by omega)]
    by_cases hj0 : j = 0
    · subst hj0
      rw [if_pos rfl]
      have h1 : (0 + n) % (n + 1) = n := by
        rw [Nat.zero_add]; exact Nat.mod_eq_of_lt (by omega)
      have h2 : (0 + 1) % (n + 1) = 1 % (n + 1) := by rw [Nat.zero_add]
      rw [h1, h2]
      by_cases hn : (0 : Nat) = n
      · rw [if_pos hn, ← hn]
      · rw [if_neg hn]
    · rw [if_neg hj0]
      have h1 : 1 ≤ j := by omega
      have h2 : (j + n) % (n + 1) = j - 1 := add_mod_pred h1 (by omega)
      rw [h2]
      have h3 : (if j ≤ 0 + 1 then 0 else j - 1) = j - 1 := by
        split_ifs <;> omega
      rw [h3]

theorem removeItem_Rstate (n k : Nat) (hk : k < n) :
    removeItem (Rstate n k) (k + 1) = Rstate n (k + 1) := by
  have hp : ((Rstate n k).node (k + 1)).previous = 0 := by
    rw [node_Rstate n k (by omega : k + 1 ≤ n), if_neg (by omega : ¬ k + 1 = 0)]
    simp
  have hq : ((Rstate n k).node (k + 1)).next = (k + 2) % (n + 1) := by
    rw [node_Rstate n k (by omega : k + 1 ≤ n), if_neg (by omega : ¬ k + 1 = 0)]
  have hplen : ((Rstate n k).node (k + 1)).previous < (Rstate n k).nodes.length := by
    rw [hp, length_Rstate]; omega
  have hqlen : ((Rstate n k).node (k + 1)).next < (Rstate n k).nodes.length := by
    rw [hq, length_Rstate]; exact Nat.mod_lt _ (by omega)
  apply Items.ext_node
  · rw [length_removeItem, length_Rstate, length_Rstate]
  · intro j hj
    rw [length_removeItem, length_Rstate] at hj
    rw [node_removeItem (Rstate n k) hplen hqlen j, hp, hq,
      node_Rstate n k (j := j) (by omega), node_Rstate n (k + 1) (j := j) (by omega)]
    have hmod' : (k + 1 + 1) % (n + 1) = (k + 2) % (n + 1) := rfl
    by_cases hkn : k + 1 = n
    · have hmod : (k + 2) % (n + 1) = 0 := by
        rw [show k + 2 = n + 1 by omega]
        exact Nat.mod_self _
      rw [hmod', hmod]
      split_ifs <;> simp only [ItemNode.mk.injEq] <;> refine ⟨?_, ?_⟩ <;> first | trivial | omega
    · have hmod : (k + 2) % (n + 1) = k + 2 := Nat.mod_eq_of_lt (by omega)
      rw [hmod', hmod]
      split_ifs <;> simp only [ItemNode.mk.injEq] <;> refine ⟨?_, ?_⟩ <;> first | trivial | omega

theorem Sstate_zero (n : Nat) : Sstate n 0 = Rstate n n := by
  apply Items.ext_node
  · rw [length_Sstate, length_Rstate]
  · intro j hj
    rw [length_Sstate] at hj
    rw [node_Sstate n 0 (by omega), node_Rstate n n (by omega)]
    by_cases hj0 : j = 0
    · subst hj0
      rw [if_pos rfl, if_pos rfl, if_pos rfl, Nat.mod_self,
        if_neg (by omega : ¬ 1 ≤ 0)]
      by_cases hn : (0 : Nat) = n
      · rw [if_pos hn, ← hn]
      · rw [if_neg hn]
    · rw [if_neg hj0, if_neg hj0]
      have e1 : (if j ≤ 0 + 1 then j - 1 else 0) = 0 := by split_ifs <;> omega
      have e2 : (if j ≤ n + 1 then 0 else j - 1) = 0 := by split_ifs <;> omega
      rw [e1, e2]

theorem Sstate_last (n : Nat) (hU : n + 1 ≤ USIZE) : Sstate n n = Items.new n := by
  apply Items.ext_node
  · rw [length_Sstate, Items.length_new]
  · intro j hj
    rw [length_Sstate] at hj
    rw [node_Sstate n n (by omega), Items.node_new n hU (by omega)]
    by_cases hj0 : j = 0
    · subst hj0
      rw [if_pos rfl]
      have h1 : (0 + n) % (n + 1) = n := by
        rw [Nat.zero_add]; exact Nat.mod_eq_of_lt (by omega)
      have h2 : (0 + 1) % (n + 1) = 1 % (n + 1) := by rw [Nat.zero_add]
      rw [h1, h2]
      by_cases hn : 1 ≤ n
      · rw [if_pos rfl, if_pos hn, Nat.mod_eq_of_lt (by omega)]
      · have hn0 : n = 0 := by omega
        subst hn0
        rfl
    · rw [if_neg hj0]
      have h1 : 1 ≤ j := by omega
      have h2 : (j + n) % (n + 1) = j - 1 := add_mod_pred h1 (by omega)
      rw [h2, if_pos (by omega : j ≤ n + 1)]

theorem reinsertItem_Sstate (n k : Nat) (hk : k < n) :
    reinsertItem (Sstate n k) (k + 1) = Sstate n (k + 1) := by
  have hp : ((Sstate n k).node (k + 1)).previous = k := by
    rw [node_Sstate n k (by omega : k + 1 ≤ n), if_neg (by omega : ¬ k + 1 = 0)]
    have e : (if k + 1 ≤ k + 1 then k + 1 - 1 else 0) = k := by
      split_ifs <;> omega
    exact e
  have hq : ((Sstate n k).node (k + 1)).next = (k + 2) % (n + 1) := by
    rw [node_Sstate n k (by omega : k + 1 ≤ n), if_neg (by omega : ¬ k + 1 = 0)]
  have hplen : ((Sstate n k).node (k + 1)).previous < (Sstate n k).nodes.length := by
    rw [hp, length_Sstate]; omega
  have hqlen : ((Sstate n k).node (k + 1)).next < (Sstate n k).nodes.length := by
    rw [hq, length_Sstate]; exact Nat.mod_lt _ (by omega)
  apply Items.ext_node
  · rw [length_reinsertItem, length_Sstate, length_Sstate]
  · intro j hj
    rw [length_reinsertItem, length_Sstate] at hj
    rw [node_reinsertItem (Sstate n k) hplen hqlen j, hp, hq,
      node_Sstate n k (j := j) (by omega), node_Sstate n (k + 1) (j := j) (by omega)]
    by_cases hjn : j = n
    · have hjm : (j + 1) % (n + 1) = 0 := by
        rw [hjn]
        exact Nat.mod_self _
      rw [hjm]
      by_cases hkn : k + 1 = n
      · have hmod : (k + 2) % (n + 1) = 0 := by
          rw [show k + 2 = n + 1 by omega]
          exact Nat.mod_self _
        rw [hmod]
        split_ifs <;> simp only [ItemNode.mk.injEq] <;> refine ⟨?_, ?_⟩ <;> first | trivial | omega
      · have hmod : (k + 2) % (n + 1) = k + 2 := Nat.mod_eq_of_lt (by omega)
        rw [hmod]
        split_ifs <;> simp only [ItemNode.mk.injEq] <;> refine ⟨?_, ?_⟩ <;> first | trivial | omega
    · have hjm : (j + 1) % (n + 1) = j + 1 := Nat.mod_eq_of_lt (by omega)
      rw [hjm]
      by_cases hkn : k + 1 = n
      · have hmod : (k + 2) % (n + 1) = 0 := by
          rw [show k + 2 = n + 1 by omega]
          exact Nat.mod_self _
        rw [hmod]
        split_ifs <;> simp only [ItemNode.mk.injEq] <;> refine ⟨?_, ?_⟩ <;> first | trivial | omega
      · have hmod : (k + 2) % (n + 1) = k + 2 := Nat.mod_eq_of_lt (by omega)
        rw [hmod]
        split_ifs <;> simp only [ItemNode.mk.injEq] <;> refine ⟨?_, ?_⟩ <;> first | trivial | omega

theorem removeFold_range (n : Nat) (hU : n + 1 ≤ USIZE) :
    ∀ k, k ≤ n → removeFold (Items.new n) (List.range' 1 k) = Rstate n k := by
  intro k
  induction k with
  | zero =>
    intro _
    exact (Rstate_zero n hU).symm
  | succ k ih =>
    intro hk
    rw [range'_one_concat k]
    unfold removeFold
    rw [List.foldl_append]
    show removeItem (removeFold (Items.new n) (List.range' 1 k)) (k + 1) = _
    rw [ih (by omega)]
    exact removeItem_Rstate n k (by omega)

theorem reinsertFold_range (n : Nat) :
    ∀ k, k ≤ n → reinsertFold (Rstate n n) (List.range' 1 k) = Sstate n k := by
  intro k
  induction k with
  | zero =>
    intro _
    exact (Sstate_zero n).symm
  | succ k ih =>
    intro hk
    rw [range'_one_concat k]
    unfold reinsertFold
    rw [List.foldl_append]
    show reinsertItem (reinsertFold (Rstate n n) (List.range' 1 k)) (k + 1) = _
    rw [ih (by omega)]
    exact reinsertItem_Sstate n k (by omega)

/-- C10: removing items `1, …, n` in increasing index order (a fresh
cursor per operation) and then reinserting `1, …, n` in the same
increasing order — not the reverse order the contract requires — exactly
restores the freshly constructed ring, so `items().count()` is `n`
again (this is the scenario of the `emptyable` test). -/
theorem claim_C10 (n : Nat) (hU : n + 1 ≤ USIZE) :
    reinsertFold (removeFold (Items.new n) (List.range' 1 n)) (List.range' 1 n) =
      Items.new n ∧
    Item.count (reinsertFold (removeFold (Items.new n) (List.range' 1 n)) (List.range' 1 n))
      (Items.items (reinsertFold (removeFold (Items.new n) (List.range' 1 n))
        (List.range' 1 n))) = some n := by
  have h1 : removeFold (Items.new n) (List.range' 1 n) = Rstate n n :=
    removeFold_range n hU n (Nat.le_refl n)
  have h2 : reinsertFold (Rstate n n) (List.range' 1 n) = Sstate n n :=
    reinsertFold_range n n (Nat.le_refl n)
  have h3 : Sstate n n = Items.new n := Sstate_last n hU
  rw [h1, h2, h3]
  exact ⟨rfl, count_new n hU⟩

theorem claim_C10_witness :
    reinsertFold (removeFold (Items.new 3) [1, 2, 3]) [1, 2, 3] = Items.new 3 ∧
    Item.count (reinsertFold (removeFold (Items.new 3) [1, 2, 3]) [1, 2, 3])
      (Items.items (reinsertFold (removeFold (Items.new 3) [1, 2, 3]) [1, 2, 3])) =
      some 3 :=
  claim_C10 3 (by decide)

theorem LinkedList.reinsert_eq {s : GState} {x b a : Nat}
    (hb : (s x).next = some b) (hbx : b ≠ x) (ha : (s x).previous = some a) :
    LinkedList.reinsert s x = some (fun j =>
      ⟨if j = a then some x else (s j).next,
       if j = b then some x else (s j).previous⟩) := by
  have h1 : (LinkedList.set_previous s b (some x) x).previous = some a := by
    unfold LinkedList.set_previous
    rw [if_neg (fun e => hbx e.symm)]
    exact ha
  unfold LinkedList.reinsert
  rw [hb]
  show (LinkedList.set_previous s b (some x) x).previous.bind _ = _
  rw [h1]
  show some (LinkedList.set_next (LinkedList.set_previous s b (some x)) a (some x)) = _
  congr 1
  funext j
  unfold LinkedList.set_next LinkedList.set_previous
  by_cases hja : j = a <;> by_cases hjb : j = b <;>
    simp [hja, hjb, Link.mk.injEq] <;> simp_all

theorem LinkedList.reinsert_self {s : GState} {x : Nat} (hb : (s x).next = some x) :
    LinkedList.reinsert s x =
      some (fun j => if j = x then ⟨some x, some x⟩ else s j) := by
  have h1 : (LinkedList.set_previous s x (some x) x).previous = some x := by
    unfold LinkedList.set_previous
    rw [if_pos rfl]
  unfold LinkedList.reinsert
  rw [hb]
  show (LinkedList.set_previous s x (some x) x).previous.bind _ = _
  rw [h1]
  show some (LinkedList.set_next (LinkedList.set_previous s x (some x)) x (some x)) = _
  congr 1
  funext j
  unfold LinkedList.set_next LinkedList.set_previous
  by_cases hjx : j = x <;> simp [hjx]

theorem LinkedList.prepend_eq {s : GState} {x jn a : Nat}
    (ha : (s x).previous = some a) (hjx : jn ≠ x) (hja : jn ≠ a) :
    LinkedList.prepend s x jn = some (fun t =>
      ⟨if t = a then some jn else if t = jn then some x else (s t).next,
       if t = x then some jn else if t = jn then some a else (s t).previous⟩) := by
  have h1 : (LinkedList.set_next (LinkedList.set_previous s jn (some a)) jn (some x) x).previous
      = some a := by
    unfold LinkedList.set_next LinkedList.set_previous
    rw [if_neg (fun e => hjx e.symm), if_neg (fun e => hjx e.symm)]
    exact ha
  unfold LinkedList.prepend
  rw [ha]
  show (LinkedList.set_next (LinkedList.set_previous s jn (some a)) jn (some x) x).previous.bind _
    = _
  rw [h1]
  show some (LinkedList.set_previous
    (LinkedList.set_next (LinkedList.set_next (LinkedList.set_previous s jn (some a))
      jn (some x)) a (some jn)) x (some jn)) = _
  congr 1
  funext t
  unfold LinkedList.set_next LinkedList.set_previous
  by_cases htx : t = x <;> by_cases htj : t = jn <;> by_cases hta : t = a <;>
    simp [htx, htj, hta, Link.mk.injEq] <;> simp_all

theorem getD_rotate {cl : List Nat} {m i : Nat} (hi : i < cl.length) :
    (cl.rotate m).getD i 0 = cl.getD ((i + m) % cl.length) 0 := by
  rw [List.getD_eq_getElem?_getD, List.getD_eq_getElem?_getD, List.getElem?_rotate hi]

theorem nodup_getD_inj {l : List Nat} (hnd : l.Nodup) {i j : Nat}
    (hi : i < l.length) (hj : j < l.length) (h : l.getD i 0 = l.getD j 0) : i = j := by
  rw [List.getD_eq_getElem?_getD, List.getD_eq_getElem?_getD,
    List.getElem?_eq_getElem hi, List.getElem?_eq_getElem hj] at h
  exact (List.Nodup.getElem_inj_iff hnd).mp h

theorem getD_mem {l : List Nat} {i : Nat} (hi : i < l.length) : l.getD i 0 ∈ l := by
  rw [List.getD_eq_getElem?_getD, List.getElem?_eq_getElem hi]
  exact List.getElem_mem _

theorem cycIdx_rotate {s : GState} {cl : List Nat} (h : CycIdx s cl) (m : Nat) :
    CycIdx s (cl.rotate m) := by
  intro i hi
  rw [List.length_rotate] at hi
  have hpos : 0 < cl.length := by omega
  have hlt : (i + 1) % (cl.rotate m).length < cl.length := by
    rw [List.length_rotate]
    exact Nat.mod_lt _ hpos
  rw [getD_rotate hi, getD_rotate (by rw [List.length_rotate] at hlt ⊢; exact hlt)]
  have e1 : ((i + 1) % (cl.rotate m).length + m) % cl.length =
      ((i + m) % cl.length + 1) % cl.length := by
    rw [List.length_rotate, Nat.mod_add_mod, Nat.mod_add_mod]
    have : i + 1 + m = i + m + 1 := by omega
    rw [this]
  rw [e1]
  exact h ((i + m) % cl.length) (Nat.mod_lt _ hpos)

theorem cycIdx_to_front {s : GState} {cl : List Nat} {x : Nat} (hx : x ∈ cl)
    (h : CycIdx s cl) : ∃ rest, (x :: rest).Perm cl ∧ CycIdx s (x :: rest) := by
  obtain ⟨c1, c2, rfl⟩ := List.append_of_mem hx
  refine ⟨c2 ++ c1, ?_, ?_⟩
  · show List.Perm ((x :: c2) ++ c1) (c1 ++ (x :: c2))
    exact List.perm_append_comm
  · have hrot := cycIdx_rotate h c1.length
    rw [List.rotate_append_length_eq c1 (x :: c2)] at hrot
    exact hrot

theorem cycIdx_succ {s : GState} {cl : List Nat} (h : CycIdx s cl) {a : Nat}
    (ha : a ∈ cl) : ∃ b, ringStep s a b := by
  obtain ⟨⟨i, hi⟩, hget⟩ := List.mem_iff_get.mp ha
  have hgd : cl.getD i 0 = a := by
    rw [List.getD_eq_getElem?_getD, List.getElem?_eq_getElem hi]
    exact hget
  refine ⟨cl.getD ((i + 1) % cl.length) 0, ?_⟩
  rw [← hgd]
  exact h i hi

theorem cycIdx_remove {s : GState} {x : Nat} {rest : List Nat}
    (h : CycIdx s (x :: rest)) (hnd : (x :: rest).Nodup) :
    ∃ s', LinkedList.remove s x = some s' ∧ CycIdx s' rest ∧
      LinkedList.reinsert s' x = some s := by
  obtain ⟨hxr, hndr⟩ := List.nodup_cons.mp hnd
  rcases rest with _ | ⟨r, rs⟩
  · -- singleton cycle: removal and reinsertion both leave the state unchanged
    have h0 := h 0 (by simp)
    have hb : (s x).next = some x := by
      have := h0.1
      simpa using this
    have hap : (s x).previous = some x := by
      have := h0.2
      simpa using this
    refine ⟨s, ?_, ?_, ?_⟩
    · rw [LinkedList.remove_eq hb hap]
      congr 1
      funext j
      by_cases hjx : j = x
      · rw [if_pos hjx, if_pos hjx, hjx]
        rw [show s x = (⟨(s x).next, (s x).previous⟩ : Link) from rfl, hb, hap]
      · rw [if_neg hjx, if_neg hjx]
    · intro i hi
      simp at hi
    · rw [LinkedList.reinsert_self hb]
      congr 1
      funext j
      by_cases hjx : j = x
      · rw [if_pos hjx, hjx]
        rw [show s x = (⟨(s x).next, (s x).previous⟩ : Link) from rfl, hb, hap]
      · rw [if_neg hjx]
  · -- at least two members
    set rest := r :: rs with hrest
    have hm : 0 < rest.length := by rw [hrest]; simp
    have hL : (x :: rest).length = rest.length + 1 := by simp
    set b := rest.getD 0 0 with hbdef
    set a := rest.getD (rest.length - 1) 0 with hadef
    have hbmem : b ∈ rest := getD_mem hm
    have hamem : a ∈ rest := getD_mem (by omega)
    have hbx : b ≠ x := fun e => hxr (e ▸ hbmem)
    have hax : a ≠ x := fun e => hxr (e ▸ hamem)
    have h0 := h 0 (by rw [hL]; omega)
    rw [Nat.zero_add] at h0
    have e2 : (1 : Nat) % (x :: rest).length = 1 := by
      rw [hL]; exact Nat.mod_eq_of_lt (by omega)
    rw [e2] at h0
    have e3 : (x :: rest).getD 0 0 = x := rfl
    have e4 : (x :: rest).getD 1 0 = b := by
      rw [List.getD_cons_succ]
    rw [e3, e4] at h0
    have hb : (s x).next = some b := h0.1
    have hbp : (s b).previous = some x := h0.2
    have hlast := h rest.length (by rw [hL]; omega)
    have e5 : (x :: rest).getD rest.length 0 = a := by
      obtain ⟨m', hm'⟩ : ∃ m', rest.length = m' + 1 := ⟨rest.length - 1, by omega⟩
      rw [hm', List.getD_cons_succ, hadef, hm']
      simp
    have e6 : (rest.length + 1) % (x :: rest).length = 0 := by
      rw [hL]
      exact Nat.mod_self _
    rw [e5, e6, e3] at hlast
    have ha2 : (s a).next = some x := hlast.1
    have hap : (s x).previous = some a := hlast.2
    refine ⟨_, LinkedList.remove_eq hb hap, ?_, ?_⟩
    · -- the remaining members still form a cycle
      intro i hi
      by_cases hilast : i + 1 = rest.length
      · have hEi : rest.getD i 0 = a := by
          rw [hadef, show rest.length - 1 = i from by omega]
        have hEsucc : rest.getD ((i + 1) % rest.length) 0 = b := by
          rw [hilast, Nat.mod_self]
        refine ⟨?_, ?_⟩
        · show (if rest.getD i 0 = a then some b else (s (rest.getD i 0)).next) =
            some (rest.getD ((i + 1) % rest.length) 0)
          rw [if_pos hEi, hEsucc]
        · show (if rest.getD ((i + 1) % rest.length) 0 = b then some a
            else (s (rest.getD ((i + 1) % rest.length) 0)).previous) =
            some (rest.getD i 0)
          rw [if_pos hEsucc, hEi]
      · have hsucc : (i + 1) % rest.length = i + 1 := Nat.mod_eq_of_lt (by omega)
        have horig := h (i + 1) (by rw [hL]; omega)
        have f1 : (x :: rest).getD (i + 1) 0 = rest.getD i 0 := List.getD_cons_succ ..
        have f2 : (x :: rest).getD ((i + 1 + 1) % (x :: rest).length) 0 =
            rest.getD (i + 1) 0 := by
          rw [hL, Nat.mod_eq_of_lt (by omega)]
          exact List.getD_cons_succ ..
        rw [f1, f2] at horig
        have hia : rest.getD i 0 ≠ a := by
          intro e
          have := nodup_getD_inj hndr (by omega) (by omega) (e.trans hadef)
          omega
        have hib : rest.getD (i + 1) 0 ≠ b := by
          intro e
          have := nodup_getD_inj hndr (by omega) (by omega) (e.trans hbdef)
          omega
        refine ⟨?_, ?_⟩
        · show (if rest.getD i 0 = a then some b else (s (rest.getD i 0)).next) =
            some (rest.getD ((i + 1) % rest.length) 0)
          rw [if_neg hia, hsucc]
          exact horig.1
        · show (if rest.getD ((i + 1) % rest.length) 0 = b then some a
            else (s (rest.getD ((i + 1) % rest.length) 0)).previous) =
            some (rest.getD i 0)
          rw [hsucc, if_neg hib]
          exact horig.2
    · -- reinserting x restores the exact pre-removal state
      have hFx_next : ((fun j => (⟨if j = a then some b else (s j).next,
          if j = b then some a else (s j).previous⟩ : Link)) x).next = some b := by
        show (if x = a then some b else (s x).next) = some b
        rw [if_neg (fun e => hax e.symm)]
        exact hb
      have hFx_prev : ((fun j => (⟨if j = a then some b else (s j).next,
          if j = b then some a else (s j).previous⟩ : Link)) x).previous = some a := by
        show (if x = b then some a else (s x).previous) = some a
        rw [if_neg (fun e => hbx e.symm)]
        exact hap
      rw [LinkedList.reinsert_eq hFx_next hbx hFx_prev]
      congr 1
      funext j
      by_cases hja : j = a
      · rw [hja]
        show (⟨if a = a then some x else (if a = a then some b else (s a).next),
          if a = b then some x else (if a = b then some a else (s a).previous)⟩ : Link) = s a
        by_cases hab : a = b
        · rw [if_pos rfl, if_pos hab]
          have hpa : (s a).previous = some x := by
            rw [hab]
            exact hbp
          rw [show s a = (⟨(s a).next, (s a).previous⟩ : Link) from rfl, ha2, hpa]
        · rw [if_pos rfl, if_neg hab, if_neg hab]
          rw [show s a = (⟨(s a).next, (s a).previous⟩ : Link) from rfl, ha2]
      · show (⟨if j = a then some x else (if j = a then some b else (s j).next),
          if j = b then some x else (if j = b then some a else (s j).previous)⟩ : Link) = s j
        rw [if_neg hja, if_neg hja]
        by_cases hjb : j = b
        · rw [hjb, if_pos rfl]
          rw [show s b = (⟨(s b).next, (s b).previous⟩ : Link) from rfl, hbp]
        · rw [if_neg hjb, if_neg hjb]

theorem getD_append_left {l1 l2 : List Nat} {n : Nat} (h : n < l1.length) :
    (l1 ++ l2).getD n 0 = l1.getD n 0 := by
  rw [List.getD_eq_getElem?_getD, List.getD_eq_getElem?_getD, List.getElem?_append_left h]

theorem getD_append_right {l1 l2 : List Nat} {n : Nat} (h : l1.length ≤ n) :
    (l1 ++ l2).getD n 0 = l2.getD (n - l1.length) 0 := by
  rw [List.getD_eq_getElem?_getD, List.getD_eq_getElem?_getD, List.getElem?_append_right h]

theorem cycIdx_prepend {s : GState} {x jn : Nat} {rest : List Nat}
    (h : CycIdx s (x :: rest)) (hnd : (x :: rest).Nodup) (hj : jn ∉ x :: rest) :
    ∃ s', LinkedList.prepend s x jn = some s' ∧ CycIdx s' (x :: (rest ++ [jn])) := by
  obtain ⟨hxr, hndr⟩ := List.nodup_cons.mp hnd
  have hjx : jn ≠ x := fun e => hj (e ▸ List.mem_cons_self x rest)
  have hjr : jn ∉ rest := fun e => hj (List.mem_cons_of_mem x e)
  rcases rest with _ | ⟨r, rs⟩
  · -- singleton: the new node becomes both neighbour of x
    have h0 := h 0 (by simp)
    have hb : (s x).next = some x := by
      have := h0.1
      simpa using this
    have hap : (s x).previous = some x := by
      have := h0.2
      simpa using this
    obtain ⟨s', hpre⟩ : ∃ s', LinkedList.prepend s x jn = some s' :=
      ⟨_, LinkedList.prepend_eq hap hjx hjx⟩
    refine ⟨_, LinkedList.prepend_eq hap hjx hjx, ?_⟩
    intro i hi
    have hlen : (x :: ([] ++ [jn]) : List Nat).length = 2 := by simp
    rw [hlen] at hi
    match i, hi with
    | 0, _ =>
      refine ⟨?_, ?_⟩
      · show (if x = x then some jn else if x = jn then some x else (s x).next) =
          some ((x :: ([] ++ [jn])).getD ((0 + 1) % (x :: ([] ++ [jn])).length) 0)
        rw [if_pos rfl]
        have e1 : (0 + 1) % (x :: ([] ++ [jn]) : List Nat).length = 1 := by
          rw [hlen]
        rw [e1]
        rfl
      · have e1 : (0 + 1) % (x :: ([] ++ [jn]) : List Nat).length = 1 := by
          rw [hlen]
        rw [e1]
        show (if jn = x then some jn else if jn = jn then some x else (s jn).previous) =
          some x
        rw [if_neg hjx, if_pos rfl]
    | 1, _ =>
      refine ⟨?_, ?_⟩
      · have e1 : (1 + 1) % (x :: ([] ++ [jn]) : List Nat).length = 0 := by
          rw [hlen]
        rw [e1]
        show (if jn = x then some jn else if jn = jn then some x else (s jn).next) =
          some x
        rw [if_neg hjx, if_pos rfl]
      · have e1 : (1 + 1) % (x :: ([] ++ [jn]) : List Nat).length = 0 := by
          rw [hlen]
        rw [e1]
        show (if x = x then some jn else if x = jn then some x else (s x).previous) =
          some ((x :: ([] ++ [jn])).getD 1 0)
        rw [if_pos rfl]
        rfl
  · -- at least two members before the insertion
    set rest := r :: rs with hrest
    have hm : 0 < rest.length := by rw [hrest]; simp
    have hL : (x :: rest).length = rest.length + 1 := by simp
    set a := rest.getD (rest.length - 1) 0 with hadef
    set bb := rest.getD 0 0 with hbbdef
    have hamem : a ∈ rest := getD_mem (by omega)
    have hbbmem : bb ∈ rest := getD_mem hm
    have hax : a ≠ x := fun e => hxr (e ▸ hamem)
    have hbbx : bb ≠ x := fun e => hxr (e ▸ hbbmem)
    have hja : jn ≠ a := fun e => hjr (e ▸ hamem)
    have hjbb : jn ≠ bb := fun e => hjr (e ▸ hbbmem)
    have h0 := h 0 (by rw [hL]; omega)
    rw [Nat.zero_add] at h0
    have e2 : (1 : Nat) % (x :: rest).length = 1 := by
      rw [hL]; exact Nat.mod_eq_of_lt (by omega)
    rw [e2] at h0
    have e3 : (x :: rest).getD 0 0 = x := rfl
    have e4 : (x :: rest).getD 1 0 = bb := by
      rw [List.getD_cons_succ]
    rw [e3, e4] at h0
    have hb : (s x).next = some bb := h0.1
    have hbp : (s bb).previous = some x := h0.2
    have hlast := h rest.length (by rw [hL]; omega)
    have e5 : (x :: rest).getD rest.length 0 = a := by
      obtain ⟨m', hm'⟩ : ∃ m', rest.length = m' + 1 := ⟨rest.length - 1, by omega⟩
      rw [hm', List.getD_cons_succ, hadef, hm']
      simp
    have e6 : (rest.length + 1) % (x :: rest).length = 0 := by
      rw [hL]
      exact Nat.mod_self _
    rw [e5, e6, e3] at hlast
    have ha2 : (s a).next = some x := hlast.1
    have hap : (s x).previous = some a := hlast.2
    refine ⟨_, LinkedList.prepend_eq hap hjx hja, ?_⟩
    intro i hi
    have hL' : (x :: (rest ++ [jn])).length = rest.length + 2 := by simp
    rw [hL'] at hi
    have gx : (x :: (rest ++ [jn])).getD 0 0 = x := rfl
    have glast : (x :: (rest ++ [jn])).getD (rest.length + 1) 0 = jn := by
      rw [List.getD_cons_succ, getD_append_right (Nat.le_refl _), Nat.sub_self]
      rfl
    by_cases hi0 : i = 0
    · subst hi0
      have e7 : (0 + 1) % (x :: (rest ++ [jn])).length = 1 := by
        rw [hL']; exact Nat.mod_eq_of_lt (by omega)
      have e8 : (x :: (rest ++ [jn])).getD 1 0 = bb := by
        rw [List.getD_cons_succ, getD_append_left hm]
      rw [e7, e8]
      refine ⟨?_, ?_⟩
      · show (if x = a then some jn else if x = jn then some x else (s x).next) = some bb
        rw [if_neg (fun e => hax e.symm), if_neg (fun e => hjx e.symm)]
        exact hb
      · show (if bb = x then some jn else if bb = jn then some a else (s bb).previous) =
          some ((x :: (rest ++ [jn])).getD 0 0)
        rw [if_neg hbbx, if_neg (fun e => hjbb e.symm), gx]
        exact hbp
    · by_cases hilastp : i = rest.length + 1
      · subst hilastp
        have e7 : (rest.length + 1 + 1) % (x :: (rest ++ [jn])).length = 0 := by
          rw [hL']
          exact Nat.mod_self _
        rw [e7, glast, gx]
        refine ⟨?_, ?_⟩
        · show (if jn = a then some jn else if jn = jn then some x else (s jn).next) = some x
          rw [if_neg hja, if_pos rfl]
        · show (if x = x then some jn else if x = jn then some a else (s x).previous) =
            some jn
          rw [if_pos rfl]
      · by_cases hilast : i = rest.length
        · subst hilast
          have gi : (x :: (rest ++ [jn])).getD rest.length 0 = a := by
            obtain ⟨m', hm'⟩ : ∃ m', rest.length = m' + 1 := ⟨rest.length - 1, by omega⟩
            rw [hm', List.getD_cons_succ, getD_append_left (by omega), hadef, hm']
            simp
          have e7 : (rest.length + 1) % (x :: (rest ++ [jn])).length = rest.length + 1 := by
            rw [hL']; exact Nat.mod_eq_of_lt (by omega)
          rw [gi, e7, glast]
          refine ⟨?_, ?_⟩
          · show (if a = a then some jn else if a = jn then some x else (s a).next) = some jn
            rw [if_pos rfl]
          · show (if jn = x then some jn else if jn = jn then some a else (s jn).previous) =
              some a
            rw [if_neg hjx, if_pos rfl]
        · -- interior step, entirely inside the old cycle
          obtain ⟨t, rfl⟩ : ∃ t, i = t + 1 := ⟨i - 1, by omega⟩
          have htm : t + 1 < rest.length := by omega
          have gi : (x :: (rest ++ [jn])).getD (t + 1) 0 = rest.getD t 0 := by
            rw [List.getD_cons_succ, getD_append_left (by omega)]
          have e7 : (t + 1 + 1) % (x :: (rest ++ [jn])).length = t + 2 := by
            rw [hL']; exact Nat.mod_eq_of_lt (by omega)
          have gsucc : (x :: (rest ++ [jn])).getD (t + 2) 0 = rest.getD (t + 1) 0 := by
            rw [show t + 2 = (t + 1) + 1 from rfl, List.getD_cons_succ,
              getD_append_left (by omega)]
          have horig := h (t + 1) (by rw [hL]; omega)
          have f1 : (x :: rest).getD (t + 1) 0 = rest.getD t 0 := List.getD_cons_succ ..
          have f2 : (x :: rest).getD ((t + 1 + 1) % (x :: rest).length) 0 =
              rest.getD (t + 1) 0 := by
            rw [hL, Nat.mod_eq_of_lt (by omega)]
            exact List.getD_cons_succ ..
          rw [f1, f2] at horig
          have hta : rest.getD t 0 ≠ a := by
            intro e
            have := nodup_getD_inj hndr (by omega) (by omega) (e.trans hadef)
            omega
          have htx : rest.getD t 0 ≠ jn := fun e => hjr (e ▸ getD_mem (by omega))
          have hsx : rest.getD (t + 1) 0 ≠ x := fun e => hxr (e ▸ getD_mem (by omega))
          have hsj : rest.getD (t + 1) 0 ≠ jn := fun e => hjr (e ▸ getD_mem (by omega))
          rw [gi, e7, gsucc]
          refine ⟨?_, ?_⟩
          · show (if rest.getD t 0 = a then some jn else if rest.getD t 0 = jn then some x
              else (s (rest.getD t 0)).next) = some (rest.getD (t + 1) 0)
            rw [if_neg hta, if_neg htx]
            exact horig.1
          · show (if rest.getD (t + 1) 0 = x then some jn
              else if rest.getD (t + 1) 0 = jn then some a
              else (s (rest.getD (t + 1) 0)).previous) = some (rest.getD t 0)
            rw [if_neg hsx, if_neg hsj]
            exact horig.2

theorem cyc_perm {s : GState} {l1 l2 : List Nat} (h : Cyc s l1) (hp : l1.Perm l2) :
    Cyc s l2 := by
  obtain ⟨hnd, cl, hcp, hcyc⟩ := h
  exact ⟨hp.nodup_iff.mp hnd, cl, hcp.trans hp, hcyc⟩

theorem good_cyc {s : GState} {l st : List Nat} (h : Good s l st) : Cyc s l := by
  cases st with
  | nil => exact h
  | cons e st => exact h.1

theorem good_perm {s : GState} {l1 l2 st : List Nat} (h : Good s l1 st)
    (hp : l1.Perm l2) : Good s l2 st := by
  cases st with
  | nil => exact cyc_perm h hp
  | cons e st =>
    obtain ⟨hc, hx, sp, lp, h1, h2, h3⟩ := h
    exact ⟨cyc_perm hc hp, fun hm => hx (hp.mem_iff.mpr hm), sp, lp, h1,
      (hp.symm.cons e).trans h2, h3⟩

theorem connect_self_ringStep (s : GState) (i : Nat) :
    ringStep (LinkedList.connect_self s i) i i := by
  unfold ringStep LinkedList.next LinkedList.previous LinkedList.connect_self
    LinkedList.set_previous LinkedList.set_next
  simp

theorem reachD_good {s : GState} {l st : List Nat} (h : ReachD s l st) :
    Good s l st := by
  induction h with
  | init s i =>
    refine ⟨by simp, [i], List.Perm.refl _, ?_⟩
    intro t ht
    simp only [List.length_singleton, Nat.lt_one_iff] at ht
    subst ht
    have := connect_self_ringStep s i
    simpa using this
  | @prepend s1 l1 x j s2 hr hx hj hpe ih =>
    obtain ⟨hnd, cl, hperm, hcyc⟩ := ih
    have hxcl := hperm.mem_iff.mpr hx
    obtain ⟨rest, hperm2, hcyc2⟩ := cycIdx_to_front hxcl hcyc
    have hnd2 : (x :: rest).Nodup := (hperm2.trans hperm).nodup_iff.mpr hnd
    have hj2 : j ∉ x :: rest := fun hm => hj ((hperm2.trans hperm).mem_iff.mp hm)
    obtain ⟨s'', hpre2, hcyc3⟩ := cycIdx_prepend hcyc2 hnd2 hj2
    have hse : s'' = s2 := Option.some.inj (hpre2.symm.trans hpe)
    subst hse
    refine ⟨List.nodup_cons.mpr ⟨hj, hnd⟩, x :: (rest ++ [j]), ?_, hcyc3⟩
    have p1 : List.Perm ((x :: rest) ++ [j]) (j :: (x :: rest)) :=
      List.perm_append_singleton j (x :: rest)
    exact p1.trans ((hperm2.trans hperm).cons j)
  | @remove s1 l1 st1 x s2 hr hx hrm ih =>
    have hcycl := good_cyc ih
    obtain ⟨hnd, cl, hperm, hcyc⟩ := hcycl
    have hxcl := hperm.mem_iff.mpr hx
    obtain ⟨rest, hperm2, hcyc2⟩ := cycIdx_to_front hxcl hcyc
    have hnd2 : (x :: rest).Nodup := (hperm2.trans hperm).nodup_iff.mpr hnd
    obtain ⟨s'', hrm2, hcycrest, hrei⟩ := cycIdx_remove hcyc2 hnd2
    have hse : s'' = s2 := Option.some.inj (hrm2.symm.trans hrm)
    subst hse
    have hpermerase := ((hperm2.trans hperm).trans (List.perm_cons_erase hx)).cons_inv
    exact ⟨⟨hnd.erase _, rest, hpermerase, hcycrest⟩, hnd.not_mem_erase,
      s1, l1, hrei, (List.perm_cons_erase hx).symm, ih⟩
  | @reinsert s1 l1 st1 x s2 hr hre ih =>
    obtain ⟨hc, hx, sp, lp, hre2, hperm, hgood⟩ := ih
    have hse : sp = s2 := Option.some.inj (hre2.symm.trans hre)
    subst hse
    exact good_perm hgood hperm.symm

/-- C5 counterexample: the claim's discipline — reinsertions in exact
reverse order of removals, with `prepend`, `remove`, `reinsert` freely
interleaved — does not preserve the cycle invariant.  Trace: connect `0`;
prepend `1` and `2` (cycle `0 → 1 → 2 → 0`); remove `1`; prepend `3`
before `2` while the removal is outstanding (cycle `0 → 3 → 2 → 0`);
reinsert `1` — the only removal, so reverse order holds.  The final
state links `0 → 1 → 2 → 0`, and member `3` (with `3.next = 2` but
`2.previous = 1`) lies on no cycle through the members. -/
theorem claim_C5_counterexample : ¬ claimCycleInvariant := by
  intro hclaim
  have h1 : ReachClaim gs1 [0] [] := ReachClaim.init gs0 0
  have h2 : ReachClaim gs2 [1, 0] [] :=
    ReachClaim.prepend h1 (by decide) (by decide) (by decide) (Option.some_get _).symm
  have h3 : ReachClaim gs3 [2, 1, 0] [] :=
    ReachClaim.prepend h2 (by decide) (by decide) (by decide) (Option.some_get _).symm
  have h4 : ReachClaim gs4 ([2, 1, 0].erase 1) [1] :=
    ReachClaim.remove h3 (by decide) (Option.some_get _).symm
  have h5 : ReachClaim gs5 (3 :: ([2, 1, 0].erase 1)) [1] :=
    ReachClaim.prepend h4 (by decide) (by decide) (by decide) (Option.some_get _).symm
  have h6 : ReachClaim gs6 [1, 3, 2, 0] [] :=
    ReachClaim.reinsert h5 (Option.some_get _).symm
  obtain ⟨cl, hperm, hcyc⟩ := hclaim gs6 [1, 3, 2, 0] [] h6
  have h3m : (3 : Nat) ∈ cl := hperm.mem_iff.mpr (by decide)
  obtain ⟨bb, hstep⟩ := cycIdx_succ hcyc h3m
  have hn3 : LinkedList.next gs6 3 = some 2 := by decide
  have hb2 : bb = 2 := by
    have hx := hstep.1
    rw [hn3] at hx
    exact (Option.some.inj hx).symm
  subst hb2
  have hp2 : LinkedList.previous gs6 2 = some 1 := by decide
  have hx := hstep.2
  rw [hp2] at hx
  exact absurd (Option.some.inj hx) (by decide)

/-- C5 amended: the circularity invariant holds for every state reachable
by `connect_self`, `prepend`, `remove` and `reinsert` when reinsertions
undo removals in exact reverse order **and** no `prepend` is performed
while a removal is outstanding: the current members always admit a
duplicate-free cyclic enumeration linked by `next` and, in reverse, by
`previous`. -/
theorem claim_C5 (s : GState) (l st : List Nat) (h : ReachD s l st) :
    l.Nodup ∧ ∃ cl, cl.Perm l ∧ CycIdx s cl :=
  good_cyc (reachD_good h)

theorem claim_C5_witness :
    ReachD gs1 [0] [] ∧
      ([0].Nodup ∧ ∃ cl, cl.Perm [0] ∧ CycIdx gs1 cl) :=
  ⟨ReachD.init gs0 0, claim_C5 gs1 [0] [] (ReachD.init gs0 0)⟩
